import Mathlib

/-!
Verification development for the game-tree search engine of
`minimax-abprune-mcts` (files `visualizer_all.py` and `visualizer_minimax.py`).

The value domain of the Python code is IEEE floats used only through order
comparisons, `max`/`min`, and the literals `float("-inf")`/`float("inf")`;
we embed it as the rationals extended with a bottom and a top element.
Python `None` (an absent value) is modelled by `Option`; a Python `TypeError`
raised by comparing or `max`-ing `None` with a number is modelled by an
`Option.none` result of the whole evaluation.

Trees are modelled by a mutually inductive tree/forest pair so that every
search function is structurally recursive and therefore evaluates inside the
kernel on concrete inputs.
-/

namespace LMS

/-- Extended value domain: rationals together with `-inf` (`⊥`) and `+inf` (`⊤`). -/
abbrev XV := WithBot (WithTop ℚ)

/-- Embedding of a finite numeric value into the extended domain. -/
def fq (q : ℚ) : XV := ((q : WithTop ℚ) : XV)

mutual
/-- A `TreeNode` of the Python sources: `id`, `value` (static leaf payoff, or
the minimax value written into `node.value` at the end of evaluation, or
Python `None`), the `pruned` flag, and the MCTS counters `visits`/`wins`.
The `parent` back-reference is not stored: every embedded operation receives
the information it would read from `parent` from its caller, which is the
node that Python's `add_child` registered as the parent.  The fields
`depth`/`is_max_node` are likewise threaded as parameters (`build_tree`
assigns them by strict alternation from a `MAX` root). -/
inductive GTree where
  | node (id : ℕ) (value : Option XV) (pruned : Bool) (visits wins : ℕ) (children : GForest)
  deriving DecidableEq

/-- An ordered sequence of children (`node.children` in the Python sources). -/
inductive GForest where
  | nil
  | cons (t : GTree) (ts : GForest)
  deriving DecidableEq
end

/-- The `id` field of a node. -/
def GTree.tid : GTree → ℕ
  | .node i _ _ _ _ _ => i

/-- The `value` field of a node. -/
def GTree.val : GTree → Option XV
  | .node _ v _ _ _ _ => v

/-- The `pruned` flag of a node. -/
def GTree.pruned : GTree → Bool
  | .node _ _ pr _ _ _ => pr

/-- The `visits` counter of a node. -/
def GTree.visits : GTree → ℕ
  | .node _ _ _ vs _ _ => vs

/-- The `wins` counter of a node. -/
def GTree.wins : GTree → ℕ
  | .node _ _ _ _ w _ => w

/-- The children of a node. -/
def GTree.kids : GTree → GForest
  | .node _ _ _ _ _ cs => cs

/-- Whether a forest is empty (Python truthiness of `node.children`). -/
def GForest.isNil : GForest → Bool
  | .nil => true
  | .cons _ _ => false

/-- Number of children in a forest (`len(node.children)`). -/
def GForest.flen : GForest → ℕ
  | .nil => 0
  | .cons _ ts => ts.flen + 1

/-- The `j`-th element of a forest (`node.children[j]`), if it exists. -/
def GForest.fget : GForest → ℕ → Option GTree
  | .nil, _ => none
  | .cons c _, 0 => some c
  | .cons _ cs, j + 1 => cs.fget j

/-- Setting `node.pruned = True` on a single node. -/
def markPruned : GTree → GTree
  | .node i v _ vs w cs => .node i v true vs w cs

/-- Setting `remaining_child.pruned = True` on every node of a forest, as the
pruning loop of `minimax` does on `node.children[i + 1:]`. -/
def markAllPruned : GForest → GForest
  | .nil => .nil
  | .cons c cs => .cons (markPruned c) (markAllPruned cs)

/-- The update decision of the `minimax` child loop
(`visualizer_all.py` lines 384-419): if `best_child is None` the child is
accepted unconditionally; otherwise `child_value` is compared strictly
against the current `value` (`>` at a MAX node, `<` at a MIN node), and a
Python `TypeError` (result `none`) occurs when either side is `None`. -/
def updFlag (mx : Bool) : Option ℕ → Option XV → Option XV → Option Bool
  | none, _, _ => some true
  | some _, some c, some v => some (if mx then decide (v < c) else decide (c < v))
  | some _, none, _ => none
  | some _, some _, none => none

mutual
/-- Embedding of `GameTreeVisualizer.minimax` from
`src/minimax-abprune-mcts/visualizer_all.py` (lines 305-517), with the
rendering calls stripped.  `pruning` is `self.pruning`; `mx` is
`node.is_max_node`; `α`, `β` are the float arguments.  The result is
`none` for a Python `TypeError`, otherwise `some (returned value, updated
node)`; the returned value is the possibly-`None` `node.value` for a leaf,
and the computed `value` (written into `node.value`) for an internal node. -/
def minimax (pruning mx : Bool) : GTree → XV → XV → Option (Option XV × GTree)
  | .node i v pr vs w .nil, _, _ => some (v, .node i v pr vs w .nil)
  | .node i _v pr vs w (.cons c cs), al, be =>
    match minimaxLoop pruning mx (.cons c cs) al be (some (if mx then (⊥ : XV) else ⊤)) none 0 with
    | none => none
    | some (r, _, cs') => some (r, .node i r pr vs w cs')

/-- The child loop of `minimax` (`for i, child in enumerate(node.children)`),
threading the current `alpha`/`beta`, the running `value` (`acc`), and the
index of the current `best_child` (`bidx`, `none` while `best_child is
None`).  A cutoff (`self.pruning and beta <= alpha`) marks every remaining
child pruned and stops. -/
def minimaxLoop (pruning mx : Bool) :
    GForest → XV → XV → Option XV → Option ℕ → ℕ → Option (Option XV × Option ℕ × GForest)
  | .nil, _, _, acc, bidx, _ => some (acc, bidx, .nil)
  | .cons c cs, al, be, acc, bidx, idx =>
    if c.pruned then
      match minimaxLoop pruning mx cs al be acc bidx (idx + 1) with
      | none => none
      | some (r, b, cs') => some (r, b, .cons c cs')
    else
      match minimax pruning (!mx) c al be with
      | none => none
      | some (cv, c') =>
        match updFlag mx bidx cv acc with
        | none => none
        | some upd =>
          match (if upd then cv else acc) with
          | none => none
          | some v' =>
            let al' := if mx then max al v' else al
            let be' := if mx then be else min be v'
            let bidx' := if upd then some idx else bidx
            if pruning && decide (be' ≤ al') then
              some (some v', bidx', .cons c' (markAllPruned cs))
            else
              match minimaxLoop pruning mx cs al' be' (some v') bidx' (idx + 1) with
              | none => none
              | some (r, b, cs') => some (r, b, .cons c' cs')
end

mutual
/-- Embedding of `GameTreeVisualizer.minimax` from
`src/minimax-abprune-mcts/visualizer_minimax.py` (lines 294-506), translated
independently of the one in `visualizer_all.py`; the algorithmic text of the
two Python functions is the same, and the equivalence is proved below. -/
def minimax2 (pruning mx : Bool) : GTree → XV → XV → Option (Option XV × GTree)
  | .node i v pr vs w .nil, _, _ => some (v, .node i v pr vs w .nil)
  | .node i _v pr vs w (.cons c cs), al, be =>
    match minimaxLoop2 pruning mx (.cons c cs) al be (some (if mx then (⊥ : XV) else ⊤)) none 0 with
    | none => none
    | some (r, _, cs') => some (r, .node i r pr vs w cs')

/-- The child loop of the `visualizer_minimax.py` copy of `minimax`. -/
def minimaxLoop2 (pruning mx : Bool) :
    GForest → XV → XV → Option XV → Option ℕ → ℕ → Option (Option XV × Option ℕ × GForest)
  | .nil, _, _, acc, bidx, _ => some (acc, bidx, .nil)
  | .cons c cs, al, be, acc, bidx, idx =>
    if c.pruned then
      match minimaxLoop2 pruning mx cs al be acc bidx (idx + 1) with
      | none => none
      | some (r, b, cs') => some (r, b, .cons c cs')
    else
      match minimax2 pruning (!mx) c al be with
      | none => none
      | some (cv, c') =>
        match updFlag mx bidx cv acc with
        | none => none
        | some upd =>
          match (if upd then cv else acc) with
          | none => none
          | some v' =>
            let al' := if mx then max al v' else al
            let be' := if mx then be else min be v'
            let bidx' := if upd then some idx else bidx
            if pruning && decide (be' ≤ al') then
              some (some v', bidx', .cons c' (markAllPruned cs))
            else
              match minimaxLoop2 pruning mx cs al' be' (some v') bidx' (idx + 1) with
              | none => none
              | some (r, b, cs') => some (r, b, .cons c' cs')
end

/-- A finite (neither `-inf` nor `+inf`) extended value. -/
def isFin (x : XV) : Bool := decide (x ≠ ⊥) && decide (x ≠ (⊤ : XV))

/-- A present, finite optional value. -/
def finOpt : Option XV → Bool
  | some x => isFin x
  | none => false

mutual
/-- Well-formedness of a tree as the spec's data-model invariant demands it
for evaluation: every childless node carries a finite static value.  (The
Python code never checks this; evaluation of a malformed tree is what the
error results of `minimax` capture.) -/
def wfT : GTree → Bool
  | .node _ v _ _ _ .nil => finOpt v
  | .node _ _ _ _ _ (.cons c cs) => wfT c && wfF cs

/-- `wfT` on every tree of a forest. -/
def wfF : GForest → Bool
  | .nil => true
  | .cons c cs => wfT c && wfF cs
end

mutual
/-- No `pruned` flag is set anywhere in the tree (the state of a freshly
built tree, before any run). -/
def cleanT : GTree → Bool
  | .node _ _ pr _ _ cs => !pr && cleanF cs

/-- `cleanT` on every tree of a forest. -/
def cleanF : GForest → Bool
  | .nil => true
  | .cons c cs => cleanT c && cleanF cs
end

mutual
/-- Proof-side reference function: the textbook minimax value of a tree
(`mx` is the node kind).  Used only under `wfT`, where every leaf value is
present; the `⊥` default for a malformed leaf is never reached there. -/
def pval (mx : Bool) : GTree → XV
  | .node _ v _ _ _ .nil => v.getD ⊥
  | .node _ _ _ _ _ (.cons c cs) => pvalF mx (.cons c cs)

/-- Fold of `pval` over a forest of children of an `mx`-node:
`max` of the children's values for a MAX node, `min` for a MIN node. -/
def pvalF (mx : Bool) : GForest → XV
  | .nil => if mx then ⊥ else ⊤
  | .cons c cs => if mx then max (pval (!mx) c) (pvalF mx cs) else min (pval (!mx) c) (pvalF mx cs)
end

mutual
/-- Modelled from the spec (§4.2 of the design document): the
`evaluate(node, alpha, beta)` contract, written from the spec's words.
A leaf returns its static value (failing on a valueless leaf).  An internal
MAX node starts from `value := -inf`, iterates the non-pruned children in
order, recursively evaluates each with the current window, replaces `value`
and the recorded best edge only on a strictly greater child value, then sets
`alpha := max(alpha, value)`; a MIN node is the symmetric dual; on a cutoff
(`beta <= alpha`, only with pruning enabled) the remaining children are
marked pruned and iteration stops; the resolved value is stored on the node
on exit. -/
def mmSpec (pruning mx : Bool) : GTree → XV → XV → Option (XV × GTree)
  | .node i v pr vs w .nil, _, _ =>
    match v with
    | some x => some (x, .node i (some x) pr vs w .nil)
    | none => none
  | .node i _v pr vs w (.cons c cs), al, be =>
    match mmSpecLoop pruning mx (.cons c cs) al be (if mx then (⊥ : XV) else ⊤) none 0 with
    | none => none
    | some (r, _, cs') => some (r, .node i (some r) pr vs w cs')

/-- Modelled from the spec: the child iteration of the §4.2 contract. -/
def mmSpecLoop (pruning mx : Bool) :
    GForest → XV → XV → XV → Option ℕ → ℕ → Option (XV × Option ℕ × GForest)
  | .nil, _, _, acc, bidx, _ => some (acc, bidx, .nil)
  | .cons c cs, al, be, acc, bidx, idx =>
    if c.pruned then
      match mmSpecLoop pruning mx cs al be acc bidx (idx + 1) with
      | none => none
      | some (r, b, cs') => some (r, b, .cons c cs')
    else
      match mmSpec pruning (!mx) c al be with
      | none => none
      | some (cv, c') =>
        let upd := if mx then decide (acc < cv) else decide (cv < acc)
        let v' := if upd then cv else acc
        let al' := if mx then max al v' else al
        let be' := if mx then be else min be v'
        let bidx' := if upd then some idx else bidx
        if pruning && decide (be' ≤ al') then
          some (v', bidx', .cons c' (markAllPruned cs))
        else
          match mmSpecLoop pruning mx cs al' be' v' bidx' (idx + 1) with
          | none => none
          | some (r, b, cs') => some (r, b, .cons c' cs')
end


mutual
/-- A node of the JSON tree specification: the optional `"id"` key, the
optional `"value"` key, and the children from `child_data.get("children",
[])` (a missing key and an empty list are the same).  Ids are taken opaque
and modelled as naturals. -/
inductive JSpec where
  | mk (id : Option ℕ) (value : Option ℚ) (children : JSpecs)

/-- An ordered list of child specifications. -/
inductive JSpecs where
  | nil
  | cons (s : JSpec) (ss : JSpecs)
end

mutual
/-- Embedding of `GameTreeVisualizer.build_tree` / `_build_subtree`
(`visualizer_all.py` lines 78-102), applied to the specification found under
the `"root"` key.  `node_data["id"]` raises a `KeyError` when the id is
missing (result `none`); `node_data.get("value")` defaults to `None`; no
other validation of any kind is performed.  Flags and counters start as in
`TreeNode.__init__`: `pruned = False`, `visits = wins = 0`. -/
def build : JSpec → Option GTree
  | .mk none _ _ => none
  | .mk (some i) v cs =>
    match buildF cs with
    | none => none
    | some f => some (.node i (v.map fq) false 0 0 f)

/-- `build` over a list of child specifications, in order; the first missing
id aborts the construction (Python's exception propagates). -/
def buildF : JSpecs → Option GForest
  | .nil => some .nil
  | .cons s ss =>
    match build s with
    | none => none
    | some t =>
      match buildF ss with
      | none => none
      | some f => some (.cons t f)
end

mutual
/-- Every node of the specification carries an id (the only property that
decides whether `build` succeeds). -/
def allIds : JSpec → Bool
  | .mk none _ _ => false
  | .mk (some _) _ cs => allIdsF cs

/-- `allIds` over a list of specifications. -/
def allIdsF : JSpecs → Bool
  | .nil => true
  | .cons s ss => allIds s && allIdsF ss
end

/-- The random source: Python's global `random` generator, modelled as a
stream of naturals with a cursor.  `random.choice(xs)` consumes one draw and
picks `xs[draw mod len(xs)]`; `random.randint(0, 1)` consumes one draw and
yields `draw mod 2`.  Any concrete stream models one possible seeded run. -/
structure Rng where
  seq : ℕ → ℕ
  pos : ℕ

/-- The next raw draw of the stream. -/
def Rng.draw (r : Rng) : ℕ := r.seq r.pos

/-- Advance the stream past one consumed draw. -/
def Rng.next (r : Rng) : Rng := ⟨r.seq, r.pos + 1⟩

/-- Embedding of `GameTreeVisualizer.calculate_ucb` (`visualizer_all.py`
lines 672-692).  The float result (which can be `+inf`) lives in `EReal`;
`parentVisits` is `none` when `node.parent is None` and otherwise carries
`node.parent.visits`.  The returned score is
`exploitation + exploration` exactly as in the source, with the three
exploration branches: root (`0`), unvisited parent (`+inf`), and
`exploration_weight * sqrt(log(parent.visits) / visits)`. -/
noncomputable def calcUcb (visits wins : ℕ) (parentVisits : Option ℕ) (w : ℝ) : EReal :=
  if visits = 0 then ⊤
  else
    match parentVisits with
    | none => (((wins : ℝ) / (visits : ℝ) : ℝ) : EReal) + (((0 : ℝ)) : EReal)
    | some 0 => (((wins : ℝ) / (visits : ℝ) : ℝ) : EReal) + (⊤ : EReal)
    | some (pv + 1) =>
      (((wins : ℝ) / (visits : ℝ) : ℝ) : EReal) +
        (((w * Real.sqrt (Real.log ((pv + 1 : ℕ) : ℝ) / (visits : ℝ))) : ℝ) : EReal)

/-- The loop of `GameTreeVisualizer.get_best_child` (`visualizer_all.py`
lines 694-715): scanning the children in order, a child with `visits == 0`
is returned immediately; otherwise its UCB score is compared with the
running `best_value` (starting at `-inf`), rebuilding (`>`) or extending
(`==`) the `best_children` list.  `Sum.inl` is the early return with the
child's index, `Sum.inr` the completed scan with the final candidate list
(indexed). -/
noncomputable def gbcLoop (parentVisits : ℕ) (w : ℝ) :
    GForest → ℕ → EReal → List (ℕ × GTree) → ((ℕ × GTree) ⊕ (EReal × List (ℕ × GTree)))
  | .nil, _, best, acc => .inr (best, acc)
  | .cons c cs, idx, best, acc =>
    if c.visits = 0 then .inl (idx, c)
    else
      let u := calcUcb c.visits c.wins (some parentVisits) w
      if best < u then gbcLoop parentVisits w cs (idx + 1) u [(idx, c)]
      else if u = best then gbcLoop parentVisits w cs (idx + 1) best (acc ++ [(idx, c)])
      else gbcLoop parentVisits w cs (idx + 1) best acc

/-- Embedding of `GameTreeVisualizer.get_best_child`: run the scan and, if no
unvisited child cut it short, pick uniformly among the tied best children
(`random.choice`, one draw).  `none` models the `IndexError` of
`random.choice([])`, reachable only for a childless node. -/
noncomputable def getBestChild (n : GTree) (w : ℝ) (rng : Rng) : Option (ℕ × GTree) × Rng :=
  match gbcLoop n.visits w n.kids 0 ⊥ [] with
  | .inl jc => (some jc, rng)
  | .inr (_, []) => (none, rng)
  | .inr (_, x :: xs) =>
    (some ((x :: xs).get ⟨rng.draw % (x :: xs).length, Nat.mod_lt _ (Nat.succ_pos _)⟩), rng.next)

/-- Every child of the forest has `visits > 0`
(`all(child.visits > 0 for child in current_node.children)`). -/
def allVisitedF : GForest → Bool
  | .nil => true
  | .cons c cs => decide (0 < c.visits) && allVisitedF cs

mutual
/-- Embedding of `GameTreeVisualizer.mcts_selection` (`visualizer_all.py`
lines 611-670): starting at the given node, while the node has children and
all of them are visited, descend into the best child by UCB; return the
index path walked, the node reached, and the advanced random source. -/
noncomputable def selRec (w : ℝ) : GTree → Rng → (List ℕ × GTree × Rng)
  | .node i v pr vs wn cs, rng =>
    if cs.isNil = false && allVisitedF cs then
      match getBestChild (.node i v pr vs wn cs) w rng with
      | (some (j, _), rng') =>
        match selStep w cs j rng' with
        | some (p, m, rng'') => (j :: p, m, rng'')
        | none => ([], .node i v pr vs wn cs, rng')
      | (none, rng') => ([], .node i v pr vs wn cs, rng')
    else ([], .node i v pr vs wn cs, rng)

/-- Continue selection inside the `j`-th child of the forest (the node
`get_best_child` returned); `none` if the index overruns the forest, which
cannot happen for the indices `get_best_child` produces. -/
noncomputable def selStep (w : ℝ) : GForest → ℕ → Rng → Option (List ℕ × GTree × Rng)
  | .nil, _, _ => none
  | .cons c _, 0, rng => some (selRec w c rng)
  | .cons _ cs, j + 1, rng => selStep w cs j rng
end

/-- The indexed children with `visits == 0`
(`[child for child in node.children if child.visits == 0]`). -/
def unvisF : GForest → ℕ → List (ℕ × GTree)
  | .nil, _ => []
  | .cons c cs, idx => (if c.visits = 0 then [(idx, c)] else []) ++ unvisF cs (idx + 1)

/-- Embedding of `GameTreeVisualizer.mcts_expansion` (`visualizer_all.py`
lines 717-756): collect the unvisited children; if any exist pick one with
`random.choice` (one draw); otherwise (`return node`) the result is `none`,
meaning the expansion node is the node itself. -/
def mctsExpand (n : GTree) (rng : Rng) : Option (ℕ × GTree) × Rng :=
  match unvisF n.kids 0 with
  | [] => (none, rng)
  | x :: xs =>
    (some ((x :: xs).get ⟨rng.draw % (x :: xs).length, Nat.mod_lt _ (Nat.succ_pos _)⟩), rng.next)

/-- The expansion step of `run_mcts` (`visualizer_all.py` lines 548-552):
`mcts_expansion` is consulted only when the selection node has been visited
at least once and has children; in every other case the expansion node is
the selection node itself (`none`). -/
def expPick (n : GTree) (rng : Rng) : Option (ℕ × GTree) × Rng :=
  if 0 < n.visits ∧ n.kids.isNil = false then mctsExpand n rng else (none, rng)

mutual
/-- Embedding of `GameTreeVisualizer.mcts_simulation` (`visualizer_all.py`
lines 758-814): from the node, repeatedly `random.choice` a child (one draw
per step) until a childless node; its value is the result when present,
otherwise `random.randint(0, 1)` (one draw) supplies a `0`/`1` payoff. -/
def simRec : GTree → Rng → (XV × Rng)
  | .node _ v _ _ _ .nil, rng =>
    match v with
    | some x => (x, rng)
    | none => (fq ((rng.draw % 2 : ℕ) : ℚ), rng.next)
  | .node _ _ _ _ _ (.cons c cs), rng =>
    simPick (.cons c cs) (rng.draw % (GForest.cons c cs).flen) rng.next

/-- Descend the rollout into the `j`-th child; `j` is a remainder modulo the
forest length, so the empty case is unreachable (kept total with a `0`
result). -/
def simPick : GForest → ℕ → Rng → (XV × Rng)
  | .nil, _, rng => (fq 0, rng)
  | .cons c _, 0, rng => simRec c rng
  | .cons _ cs, j + 1, rng => simPick cs j rng
end

mutual
/-- Embedding of `GameTreeVisualizer.mcts_backpropagation` (`visualizer_all.py`
lines 816-869), reformulated top-down: the Python code walks from the
expansion node up the `parent` chain to the root; the set of updated nodes
is exactly the chain of positions from the root along the given index path,
and on each of them `visits += 1` and `wins += 1` if and only if
`result == 1`.  The final state of the bottom-up walk and of this top-down
recursion coincide (the updates are independent increments). -/
def bpT (result : XV) : GTree → List ℕ → GTree
  | .node i v pr vs w cs, [] =>
    .node i v pr (vs + 1) (if result = fq 1 then w + 1 else w) cs
  | .node i v pr vs w cs, j :: rest =>
    .node i v pr (vs + 1) (if result = fq 1 then w + 1 else w) (bpF result cs j rest)

/-- Apply the backpropagation walk inside the `j`-th tree of a forest. -/
def bpF (result : XV) : GForest → ℕ → List ℕ → GForest
  | .nil, _, _ => .nil
  | .cons c cs, 0, rest => .cons (bpT result c rest) cs
  | .cons c cs, j + 1, rest => .cons c (bpF result cs j rest)
end

mutual
/-- The `(visits, wins)` statistics of the node at an index path, if the
path exists in the tree. -/
def statsAt : GTree → List ℕ → Option (ℕ × ℕ)
  | t, [] => some (t.visits, t.wins)
  | .node _ _ _ _ _ cs, j :: rest => statsAtF cs j rest

/-- `statsAt` through the `j`-th tree of a forest. -/
def statsAtF : GForest → ℕ → List ℕ → Option (ℕ × ℕ)
  | .nil, _, _ => none
  | .cons c _, 0, rest => statsAt c rest
  | .cons _ cs, j + 1, rest => statsAtF cs j rest
end

/-- `q` is an initial segment of `p` (the updated positions of a
backpropagation along `p` are exactly those with `leadsTo q p`). -/
def leadsTo : List ℕ → List ℕ → Bool
  | [], _ => true
  | _ :: _, [] => false
  | a :: qs, b :: ps => a == b && leadsTo qs ps

mutual
/-- `wins ≤ visits` at every node of the tree. -/
def statsOkT : GTree → Bool
  | .node _ _ _ vs w cs => decide (w ≤ vs) && statsOkF cs

/-- `statsOkT` on every tree of a forest. -/
def statsOkF : GForest → Bool
  | .nil => true
  | .cons c cs => statsOkT c && statsOkF cs
end

mutual
/-- The reset loop at the start of `run_mcts` (`visualizer_all.py` lines
534-537): `visits`, `wins` (and the cached `ucb`, which we do not store) are
zeroed on every node.  The Python loop iterates over the id-keyed
`node_objects` dictionary and resets `get_node_by_id(node_id)`; for a tree
with distinct ids — the only trees the id-based reporting supports — that
is exactly a full reset. -/
def resetStats : GTree → GTree
  | .node i v pr _ _ cs => .node i v pr 0 0 (resetStatsF cs)

/-- `resetStats` on every tree of a forest. -/
def resetStatsF : GForest → GForest
  | .nil => .nil
  | .cons c cs => .cons (resetStats c) (resetStatsF cs)
end

/-- One full MCTS iteration followed by the remaining ones
(`for iteration in range(1, iterations + 1)` in `run_mcts`,
`visualizer_all.py` lines 540-562): selection from the root, the guarded
expansion step, simulation from the expansion node, and backpropagation
along the path from the root to the expansion node. -/
noncomputable def mctsIterate (w : ℝ) : ℕ → GTree → Rng → GTree × Rng
  | 0, t, rng => (t, rng)
  | n + 1, t, rng =>
    match selRec w t rng with
    | (path, nd, rng₁) =>
      match expPick nd rng₁ with
      | (some (j, c), rng₂) =>
        match simRec c rng₂ with
        | (res, rng₃) => mctsIterate w n (bpT res t (path ++ [j])) rng₃
      | (none, rng₂) =>
        match simRec nd rng₂ with
        | (res, rng₃) => mctsIterate w n (bpT res t path) rng₃

/-- Embedding of `GameTreeVisualizer.run_mcts` (`visualizer_all.py` lines
519-595): reset all statistics, run the configured number of iterations,
then pick the root's best child with `get_best_child(root, 0)` and report
its id and win rate `wins / visits`.  The second component is `none` when
the final reporting step raises: `random.choice([])` on a childless root,
or the `ZeroDivisionError` of `best_child.wins / best_child.visits` when
the chosen child is unvisited.  No configuration validation of any kind is
performed. -/
noncomputable def runMCTS (t : GTree) (iters : ℕ) (w : ℝ) (rng : Rng) :
    GTree × Option (ℕ × ℝ) :=
  match mctsIterate w iters (resetStats t) rng with
  | (t', rng') =>
    match getBestChild t' 0 rng' with
    | (none, _) => (t', none)
    | (some (_, c), _) =>
      if c.visits = 0 then (t', none)
      else (t', some (c.tid, (c.wins : ℝ) / (c.visits : ℝ)))

/-- The first child (in order) with `visits == 0`, with its index. -/
def firstUnvisF : GForest → ℕ → Option (ℕ × GTree)
  | .nil, _ => none
  | .cons c cs, idx => if c.visits = 0 then some (idx, c) else firstUnvisF cs (idx + 1)

mutual
/-- The shape of a tree: ids and child structure with all search state
normalized away.  MCTS never allocates or removes nodes, which is expressed
as preservation of `skelT`. -/
def skelT : GTree → GTree
  | .node i _ _ _ _ cs => .node i none false 0 0 (skelF cs)

/-- `skelT` on every tree of a forest. -/
def skelF : GForest → GForest
  | .nil => .nil
  | .cons c cs => .cons (skelT c) (skelF cs)
end

mutual
/-- Frame check for a pruning run from a clean tree: every node whose
`pruned` flag was newly set is identical to its original apart from that
flag — its subtree was never entered, no value was written, nothing below
it changed.  Nodes whose flag did not change are checked recursively. -/
def frameT : GTree → GTree → Bool
  | .node i v pr vs w cs, .node i' v' pr' vs' w' cs' =>
    if pr' && !pr then
      decide (GTree.node i' v' pr' vs' w' cs' = markPruned (GTree.node i v pr vs w cs))
    else frameF cs cs'

/-- `frameT` pairwise on two forests of equal length. -/
def frameF : GForest → GForest → Bool
  | .nil, .nil => true
  | .cons c cs, .cons d ds => frameT c d && frameF cs ds
  | _, _ => false
end

/-- Every tree of the forest has its top `pruned` flag set. -/
def allPrunedF : GForest → Bool
  | .nil => true
  | .cons c cs => c.pruned && allPrunedF cs

mutual
/-- At every node, the pruned children form a contiguous final segment of
the child list: a pruned child is never followed by an unpruned sibling. -/
def sufT : GTree → Bool
  | .node _ _ _ _ _ cs => sufF cs

/-- The forest check for `sufT`: once a pruned child occurs, all the
remaining children are pruned (and their own subtrees satisfy `sufT`). -/
def sufF : GForest → Bool
  | .nil => true
  | .cons c cs => (if c.pruned then allPrunedF cs else true) && sufT c && sufF cs
end

/-! ### Concrete inputs used by witnesses and counterexamples -/

/-- A deterministic random stream (every draw is `0`): one concrete seeded
run of Python's global generator. -/
def rng0 : Rng := ⟨fun _ => 0, 0⟩

/-- A leaf with an id and a finite static value. -/
def leafT (i : ℕ) (q : ℚ) : GTree := .node i (some (fq q)) false 0 0 .nil

/-- The worked tree of the spec (§8): a MAX root with MIN children
`A = min(3, 5)` and `B = min(2, 9)`. -/
def exAB : GTree :=
  .node 0 none false 0 0 (.cons
    (.node 1 none false 0 0 (.cons (leafT 2 3) (.cons (leafT 3 5) .nil)))
    (.cons (.node 4 none false 0 0 (.cons (leafT 5 2) (.cons (leafT 6 9) .nil))) .nil))

/-- A root with one visited and one unvisited child (their `visits` fields
as an MCTS run can leave them). -/
def exMix : GTree :=
  .node 0 none false 1 0 (.cons (.node 1 (some (fq 5)) false 1 1 .nil)
    (.cons (.node 2 (some (fq 7)) false 0 0 .nil) .nil))

/-- An unvisited root with two unvisited leaf children. -/
def exTwo : GTree := .node 0 none false 0 0 (.cons (leafT 1 1) (.cons (leafT 2 0) .nil))

/-- A root with a single leaf child. -/
def exOne : GTree := .node 0 none false 0 0 (.cons (leafT 1 1) .nil)

/-! ### Basic facts about the value domain -/

theorem fq_le_fq {a b : ℚ} : fq a ≤ fq b ↔ a ≤ b := by
  simp [fq]

theorem fq_lt_fq {a b : ℚ} : fq a < fq b ↔ a < b := by
  simp [fq]

theorem bot_lt_fq (a : ℚ) : (⊥ : XV) < fq a := by
  simp [fq]

theorem fq_lt_top (a : ℚ) : fq a < (⊤ : XV) := by
  have h : ((⊤ : WithTop ℚ) : XV) = (⊤ : XV) := rfl
  rw [fq, ← h]
  exact WithBot.coe_lt_coe.mpr (WithTop.coe_lt_top a)

theorem isFin_iff {x : XV} : isFin x = true ↔ ∃ q : ℚ, x = fq q := by
  constructor
  · intro h
    simp only [isFin, Bool.and_eq_true, decide_eq_true_eq] at h
    obtain ⟨hb, ht⟩ := h
    induction x using WithBot.recBotCoe with
    | bot => exact absurd rfl hb
    | coe y =>
      induction y using WithTop.recTopCoe with
      | top => exact absurd rfl ht
      | coe q => exact ⟨q, rfl⟩
  · rintro ⟨q, rfl⟩
    simp [isFin, fq]

/-! ### C10: the two files carry the same minimax algorithm -/

mutual
/-- The `minimax` of `visualizer_all.py` and the `minimax` of
`visualizer_minimax.py` agree on every input (tree level). -/
theorem mmEqT (p mx : Bool) (t : GTree) (al be : XV) :
    minimax p mx t al be = minimax2 p mx t al be := by
  cases t with
  | node i v pr vs w cs =>
    cases cs with
    | nil => rfl
    | cons c cs' =>
      rw [minimax, minimax2, mmEqF p mx (.cons c cs') al be]

/-- The two child loops agree on every input (forest level). -/
theorem mmEqF (p mx : Bool) (f : GForest) (al be : XV) :
    ∀ acc b i, minimaxLoop p mx f al be acc b i = minimaxLoop2 p mx f al be acc b i := by
  intro acc b i
  cases f with
  | nil => rfl
  | cons c cs =>
    rw [minimaxLoop, minimaxLoop2, mmEqT p (!mx) c al be]
    simp only [mmEqF p mx cs]
end

/-! ### C7: backpropagation increments and counter invariants -/

/-- The incremented wins counter of one backpropagation touch. -/
theorem bump_le {w vs : ℕ} (res : XV) (h : w ≤ vs) :
    (if res = fq 1 then w + 1 else w) ≤ vs + 1 := by
  split <;> omega

mutual
/-- Exact effect of a backpropagation walk on the statistics at any
position: positions that are initial segments of the walked path are
incremented (visits by one, wins by one exactly when the result is `1`),
every other position is untouched. -/
theorem statsAt_bpT (res : XV) (t : GTree) (p q : List ℕ) :
    statsAt (bpT res t p) q =
      (statsAt t q).map
        (fun s => if leadsTo q p then (s.1 + 1, s.2 + (if res = fq 1 then 1 else 0)) else s) := by
  cases t with
  | node i v pr vs w cs =>
    cases q with
    | nil =>
      cases p with
      | nil => simp [bpT, statsAt, leadsTo, GTree.visits, GTree.wins]; split <;> simp
      | cons j rest => simp [bpT, statsAt, leadsTo, GTree.visits, GTree.wins]; split <;> simp
    | cons a qs =>
      cases p with
      | nil =>
        simp only [bpT, statsAt, leadsTo]
        cases statsAtF cs a qs <;> simp
      | cons j rest =>
        simp only [bpT, statsAt, leadsTo]
        rw [statsAt_bpF res cs j rest a qs]

/-- Forest version of `statsAt_bpT`: the walk enters the `j`-th tree, the
lookup the `a`-th. -/
theorem statsAt_bpF (res : XV) (f : GForest) (j : ℕ) (rest : List ℕ) (a : ℕ) (qs : List ℕ) :
    statsAtF (bpF res f j rest) a qs =
      (statsAtF f a qs).map
        (fun s => if a == j && leadsTo qs rest then
            (s.1 + 1, s.2 + (if res = fq 1 then 1 else 0)) else s) := by
  cases f with
  | nil => cases a <;> cases j <;> simp [bpF, statsAtF]
  | cons c cs =>
    cases j with
    | zero =>
      cases a with
      | zero =>
        simp only [bpF, statsAtF]
        rw [statsAt_bpT res c rest qs]
        simp
      | succ k =>
        simp only [bpF, statsAtF]
        cases statsAtF cs k qs <;> simp
    | succ m =>
      cases a with
      | zero =>
        simp only [bpF, statsAtF]
        cases statsAt c qs <;> simp
      | succ k =>
        simp only [bpF, statsAtF]
        rw [statsAt_bpF res cs m rest k qs]
        simp
end

mutual
/-- A backpropagation walk preserves `wins ≤ visits` everywhere. -/
theorem statsOk_bpT (res : XV) (t : GTree) (p : List ℕ) (h : statsOkT t = true) :
    statsOkT (bpT res t p) = true := by
  cases t with
  | node i v pr vs w cs =>
    simp only [statsOkT, Bool.and_eq_true, decide_eq_true_eq] at h
    cases p with
    | nil =>
      simp only [bpT, statsOkT, Bool.and_eq_true, decide_eq_true_eq]
      exact ⟨bump_le res h.1, h.2⟩
    | cons j rest =>
      simp only [bpT, statsOkT, Bool.and_eq_true, decide_eq_true_eq]
      exact ⟨bump_le res h.1, statsOk_bpF res cs j rest h.2⟩

/-- Forest version of `statsOk_bpT`. -/
theorem statsOk_bpF (res : XV) (f : GForest) (j : ℕ) (rest : List ℕ) (h : statsOkF f = true) :
    statsOkF (bpF res f j rest) = true := by
  cases f with
  | nil => simp [bpF, statsOkF]
  | cons c cs =>
    simp only [statsOkF, Bool.and_eq_true] at h
    cases j with
    | zero =>
      simp only [bpF, statsOkF, Bool.and_eq_true]
      exact ⟨statsOk_bpT res c rest h.1, h.2⟩
    | succ m =>
      simp only [bpF, statsOkF, Bool.and_eq_true]
      exact ⟨h.1, statsOk_bpF res cs m rest h.2⟩
end

mutual
/-- `statsOkT` bounds the statistics visible at every position. -/
theorem statsOk_statsAt (t : GTree) (q : List ℕ) (a b : ℕ) (h : statsOkT t = true)
    (hq : statsAt t q = some (a, b)) : b ≤ a := by
  cases t with
  | node i v pr vs w cs =>
    simp only [statsOkT, Bool.and_eq_true, decide_eq_true_eq] at h
    cases q with
    | nil =>
      simp only [statsAt, GTree.visits, GTree.wins, Option.some_inj] at hq
      obtain ⟨h1, h2⟩ := Prod.mk.injEq .. ▸ hq
      omega
    | cons j rest =>
      simp only [statsAt] at hq
      exact statsOk_statsAtF cs j rest a b h.2 hq

/-- Forest version of `statsOk_statsAt`. -/
theorem statsOk_statsAtF (f : GForest) (j : ℕ) (rest : List ℕ) (a b : ℕ)
    (h : statsOkF f = true) (hq : statsAtF f j rest = some (a, b)) : b ≤ a := by
  cases f with
  | nil => simp [statsAtF] at hq
  | cons c cs =>
    simp only [statsOkF, Bool.and_eq_true] at h
    cases j with
    | zero =>
      simp only [statsAtF] at hq
      exact statsOk_statsAt c rest a b h.1 hq
    | succ m =>
      simp only [statsAtF] at hq
      exact statsOk_statsAtF cs m rest a b h.2 hq
end

/-- C7: a backpropagation walk increments `visits` by exactly one and `wins`
by one exactly when the simulation result equals `1`, at precisely the
positions on the path from the root to the expansion node (`leadsTo q p`);
every other node is untouched; consequently `wins ≤ visits` is preserved by
every iteration's backpropagation, and any reachable statistics satisfy
`wins ≤ visits` and `visits = 0 → wins = 0`. -/
theorem spec_C7_backprop :
    (∀ (res : XV) (t : GTree) (p q : List ℕ),
      statsAt (bpT res t p) q =
        (statsAt t q).map
          (fun s => if leadsTo q p then (s.1 + 1, s.2 + (if res = fq 1 then 1 else 0)) else s)) ∧
    (∀ (res : XV) (t : GTree) (p : List ℕ),
      statsOkT t = true → statsOkT (bpT res t p) = true) ∧
    (∀ (res : XV) (t : GTree) (p q : List ℕ) (a b : ℕ), statsOkT t = true →
      statsAt (bpT res t p) q = some (a, b) → b ≤ a ∧ (a = 0 → b = 0)) := by
  refine ⟨statsAt_bpT, statsOk_bpT, ?_⟩
  intro res t p q a b h hq
  have hb := statsOk_statsAt (bpT res t p) q a b (statsOk_bpT res t p h) hq
  exact ⟨hb, fun ha => by omega⟩

/-- Concrete instantiation of `spec_C7_backprop` on a two-leaf tree. -/
theorem spec_C7_witness :
    statsAt (bpT (fq 1) (GTree.node 0 none false 2 1
        (.cons (.node 1 (some (fq 1)) false 1 1 .nil)
          (.cons (.node 2 (some (fq 0)) false 1 0 .nil) .nil))) [0]) [0] =
      some (2, 2) ∧
    statsOkT (bpT (fq 1) (GTree.node 0 none false 2 1
        (.cons (.node 1 (some (fq 1)) false 1 1 .nil)
          (.cons (.node 2 (some (fq 0)) false 1 0 .nil) .nil))) [0]) = true := by
  constructor
  · rw [spec_C7_backprop.1 (fq 1) _ [0] [0]]
    decide
  · exact spec_C7_backprop.2.1 (fq 1) _ [0] (by decide)

/-- C10: the `minimax` functions of `visualizer_all.py` and
`visualizer_minimax.py` are extensionally equal: same returned value, same
updated tree (hence the same computed values and the same pruned-edge set),
for every tree, window and pruning flag. -/
theorem spec_C10_minimax_duplicates_equiv :
    ∀ (pruning mx : Bool) (t : GTree) (al be : XV),
      minimax pruning mx t al be = minimax2 pruning mx t al be :=
  fun p mx t al be => mmEqT p mx t al be

/-! ### C5: what tree construction actually checks -/

mutual
/-- `build` succeeds exactly when every node of the specification carries an
id; no other shape property is examined. -/
theorem build_isSome (sp : JSpec) : (build sp).isSome = allIds sp := by
  cases sp with
  | mk i v cs =>
    cases i with
    | none => simp [build, allIds]
    | some i =>
      simp only [build, allIds]
      rw [← buildF_isSome cs]
      cases buildF cs <;> simp

/-- `buildF` succeeds exactly when every node of every specification in the
list carries an id. -/
theorem buildF_isSome (ss : JSpecs) : (buildF ss).isSome = allIdsF ss := by
  cases ss with
  | nil => simp [buildF, allIdsF]
  | cons sp ss' =>
    simp only [buildF, allIdsF]
    rw [← build_isSome sp, ← buildF_isSome ss']
    cases build sp <;> cases buildF ss' <;> simp
end

/-- C5 counterexample: tree construction does **not** fail on malformed
specifications.  A duplicated id, a node with both children and a static
value, and a childless node with no value are all accepted by `build_tree`
without any error (there is no `TreeFormatError` anywhere in the code); the
only build-time failure is the `KeyError` of a missing id. -/
theorem spec_C5_counterexample :
    build (.mk (some 0) none (.cons (.mk (some 1) (some 3) .nil)
        (.cons (.mk (some 1) (some 4) .nil) .nil))) =
      some (.node 0 none false 0 0 (.cons (.node 1 (some (fq 3)) false 0 0 .nil)
        (.cons (.node 1 (some (fq 4)) false 0 0 .nil) .nil))) ∧
    build (.mk (some 0) (some 7) (.cons (.mk (some 1) (some 3) .nil) .nil)) =
      some (.node 0 (some (fq 7)) false 0 0 (.cons (.node 1 (some (fq 3)) false 0 0 .nil) .nil)) ∧
    build (.mk (some 0) none .nil) = some (.node 0 none false 0 0 .nil) := by
  refine ⟨by decide, by decide, by decide⟩

/-- C5 amended: construction fails (with a key-lookup error, not a
`TreeFormatError`) exactly when some node of the specification is missing
its id; duplicated ids, nodes with both children and a value, and valueless
childless nodes are accepted silently — and a valueless leaf then breaks
*during search* (the `TypeError` of comparing `None`), contradicting the
claim that malformed shapes are rejected once at build time. -/
theorem spec_C5_amended :
    (∀ sp : JSpec, (build sp).isSome = allIds sp) ∧
    minimax true true
        (.node 0 none false 0 0 (.cons (.node 1 none false 0 0 .nil) .nil)) ⊥ ⊤ = none := by
  exact ⟨build_isSome, by decide⟩

/-! ### C6: the UCB1 formula -/

/-- Lower numeric bound on `log 10`. -/
theorem log_ten_gt : (9 / 4 : ℝ) < Real.log 10 := by
  rw [Real.lt_log_iff_exp_lt (by norm_num)]
  have h9 : Real.exp 9 < 10000 := by
    have h1 : Real.exp 1 < 2.7182818286 := Real.exp_one_lt_d9
    have hp : Real.exp 1 ^ (9 : ℕ) < 2.7182818286 ^ (9 : ℕ) :=
      pow_lt_pow_left₀ h1 (le_of_lt (Real.exp_pos 1)) (by norm_num)
    rw [Real.exp_one_pow] at hp
    calc Real.exp 9 = Real.exp ((9 : ℕ) : ℝ) := by norm_num
    _ < 2.7182818286 ^ (9 : ℕ) := hp
    _ < 10000 := by norm_num
  have hsq : Real.exp (9 / 4) ^ (4 : ℕ) = Real.exp 9 := by
    rw [← Real.exp_nat_mul]
    norm_num
  have : Real.exp (9 / 4) ^ (4 : ℕ) < 10 ^ (4 : ℕ) := by
    rw [hsq]; norm_num [h9]
  exact lt_of_pow_lt_pow_left₀ 4 (by norm_num) this

/-- Upper numeric bound on `log 10`. -/
theorem log_ten_lt : Real.log 10 < 5 / 2 := by
  rw [Real.log_lt_iff_lt_exp (by norm_num)]
  have h5 : (100 : ℝ) < Real.exp 5 := by
    have h1 : (2.7182818283 : ℝ) < Real.exp 1 := Real.exp_one_gt_d9
    have hp : (2.7182818283 : ℝ) ^ (5 : ℕ) < Real.exp 1 ^ (5 : ℕ) :=
      pow_lt_pow_left₀ h1 (by norm_num) (by norm_num)
    rw [Real.exp_one_pow] at hp
    calc (100 : ℝ) < 2.7182818283 ^ (5 : ℕ) := by norm_num
    _ < Real.exp ((5 : ℕ) : ℝ) := hp
    _ = Real.exp 5 := by norm_num
  have hsq : Real.exp (5 / 2) ^ (2 : ℕ) = Real.exp 5 := by
    rw [← Real.exp_nat_mul]
    norm_num
  have : (10 : ℝ) ^ (2 : ℕ) < Real.exp (5 / 2) ^ (2 : ℕ) := by
    rw [hsq]; norm_num [h5]
  exact lt_of_pow_lt_pow_left₀ 2 (le_of_lt (Real.exp_pos _)) this

/-- The exploration radical of the spec's worked UCB example, bounded. -/
theorem sqrt_term_bounds :
    (3 / 4 : ℝ) < Real.sqrt (Real.log 10 / 4) ∧ Real.sqrt (Real.log 10 / 4) < 0.791 := by
  constructor
  · rw [Real.lt_sqrt (by norm_num)]
    have := log_ten_gt
    nlinarith
  · rw [Real.sqrt_lt' (by norm_num)]
    have := log_ten_lt
    nlinarith

/-- C6: the UCB1 score of `calculate_ucb` is `+inf` for an unvisited node;
otherwise it is `wins / visits` plus an exploration term that is `0` at the
root (no parent), `+inf` under an unvisited parent, and
`exploration_weight * sqrt(ln(parent.visits) / visits)` in general; at
`visits = 4`, `wins = 2`, parent visits `10`, weight `1.4` the score equals
`1/2 + 1.4 * sqrt(ln 10 / 4)`, a value between `1.55` and `1.61`
(numerically `≈ 1.562`). -/
theorem spec_C6_ucb_formula :
    (∀ (w : ℝ) (pv : Option ℕ) (wins : ℕ), calcUcb 0 wins pv w = ⊤) ∧
    (∀ (v wins : ℕ) (w : ℝ),
      calcUcb (v + 1) wins none w = (((wins : ℝ) / ((v + 1 : ℕ) : ℝ) : ℝ) : EReal)) ∧
    (∀ (v wins : ℕ) (w : ℝ), calcUcb (v + 1) wins (some 0) w = ⊤) ∧
    (∀ (v wins pv : ℕ) (w : ℝ),
      calcUcb (v + 1) wins (some (pv + 1)) w =
        ((((wins : ℝ) / ((v + 1 : ℕ) : ℝ) +
          w * Real.sqrt (Real.log ((pv + 1 : ℕ) : ℝ) / ((v + 1 : ℕ) : ℝ))) : ℝ) : EReal)) ∧
    calcUcb 4 2 (some 10) 1.4 = (((1 / 2 + 1.4 * Real.sqrt (Real.log 10 / 4)) : ℝ) : EReal) ∧
    (((1.55 : ℝ) : EReal) < calcUcb 4 2 (some 10) 1.4 ∧
      calcUcb 4 2 (some 10) 1.4 < ((1.61 : ℝ) : EReal)) := by
  have h4 : calcUcb 4 2 (some 10) 1.4 = (((1 / 2 + 1.4 * Real.sqrt (Real.log 10 / 4)) : ℝ) : EReal) := by
    show calcUcb (3 + 1) 2 (some (9 + 1)) 1.4 = _
    rw [calcUcb.eq_def]
    simp only [Nat.succ_ne_zero, if_false]
    rw [← EReal.coe_add]
    norm_num
  refine ⟨?_, ?_, ?_, ?_, h4, ?_, ?_⟩
  · intro w pv wins; rw [calcUcb.eq_def]; simp
  · intro v wins w
    rw [calcUcb.eq_def]
    simp only [Nat.succ_ne_zero, if_false]
    rw [← EReal.coe_add]
    norm_num
  · intro v wins w
    rw [calcUcb.eq_def]
    simp only [Nat.succ_ne_zero, if_false]
    exact EReal.coe_add_top _
  · intro v wins pv w
    rw [calcUcb.eq_def]
    simp only [Nat.succ_ne_zero, if_false]
    rw [← EReal.coe_add]
  · rw [h4]
    rw [EReal.coe_lt_coe_iff]
    have := sqrt_term_bounds.1
    nlinarith
  · rw [h4]
    rw [EReal.coe_lt_coe_iff]
    have := sqrt_term_bounds.2
    nlinarith

/-! ### C4: the expansion step -/

/-- Every entry of the unvisited-children list is an unvisited child of the
forest at its recorded index. -/
theorem unvisF_mem (f : GForest) : ∀ (idx j : ℕ) (c : GTree),
    (j, c) ∈ unvisF f idx → idx ≤ j ∧ f.fget (j - idx) = some c ∧ c.visits = 0 := by
  cases f with
  | nil => intro idx j c h; simp [unvisF] at h
  | cons d ds =>
    intro idx j c h
    simp only [unvisF, List.mem_append] at h
    rcases h with h | h
    · by_cases hv : d.visits = 0
      · simp [hv] at h
        obtain ⟨rfl, rfl⟩ := h
        simpa [GForest.fget] using hv
      · simp [hv] at h
    · obtain ⟨h1, h2, h3⟩ := unvisF_mem ds (idx + 1) j c h
      refine ⟨by omega, ?_, h3⟩
      have : j - idx = (j - (idx + 1)) + 1 := by omega
      rw [this]
      simpa [GForest.fget] using h2

mutual
/-- Backpropagation never changes the shape of the tree. -/
theorem skel_bpT (res : XV) (t : GTree) (p : List ℕ) : skelT (bpT res t p) = skelT t := by
  cases t with
  | node i v pr vs w cs =>
    cases p with
    | nil => simp [bpT, skelT]
    | cons j rest => simp [bpT, skelT, skel_bpF res cs j rest]

/-- Forest version of `skel_bpT`. -/
theorem skel_bpF (res : XV) (f : GForest) (j : ℕ) (rest : List ℕ) :
    skelF (bpF res f j rest) = skelF f := by
  cases f with
  | nil => simp [bpF]
  | cons c cs =>
    cases j with
    | zero => simp [bpF, skelF, skel_bpT res c rest]
    | succ m => simp [bpF, skelF, skel_bpF res cs m rest]
end

/-- The whole iteration loop of `run_mcts` never changes the shape of the
tree: statistics move, nodes never appear or disappear. -/
theorem skel_mctsIterate (w : ℝ) : ∀ (n : ℕ) (t : GTree) (rng : Rng),
    skelT ((mctsIterate w n t rng).1) = skelT t := by
  intro n
  induction n with
  | zero => intro t rng; rfl
  | succ m ih =>
    intro t rng
    rcases h1 : selRec w t rng with ⟨path, nd, rng₁⟩
    rcases h2 : expPick nd rng₁ with ⟨pick, rng₂⟩
    cases pick with
    | some jc =>
      rcases jc with ⟨j, c⟩
      rcases h3 : simRec c rng₂ with ⟨res, rng₃⟩
      simp only [mctsIterate, h1, h2, h3]
      rw [ih, skel_bpT]
    | none =>
      rcases h3 : simRec nd rng₂ with ⟨res, rng₃⟩
      simp only [mctsIterate, h1, h2, h3]
      rw [ih, skel_bpT]

/-- C4 counterexample: the claim requires that whenever the selection node
has unvisited children, one of them becomes the expansion node.  On an
unvisited root with two unvisited children the engine expands the root
itself (the `selected_node.visits > 0` guard of `run_mcts` fails), and a
full first iteration accordingly backpropagates into the root only, leaving
both children at `visits = 0`. -/
theorem spec_C4_counterexample :
    expPick exTwo rng0 = (none, rng0) ∧
    unvisF exTwo.kids 0 = [(0, leafT 1 1), (1, leafT 2 0)] ∧
    exTwo.visits = 0 ∧
    (mctsIterate 1.4 1 (resetStats exTwo) rng0).1
      = .node 0 none false 1 1 (.cons (leafT 1 1) (.cons (leafT 2 0) .nil)) := by
  refine ⟨rfl, by decide, by decide, ?_⟩
  simp [mctsIterate, selRec, resetStats, resetStatsF, exTwo, leafT, GForest.isNil, allVisitedF,
    GTree.kids, GTree.visits, expPick, simRec, simPick, GForest.flen, Rng.draw, Rng.next,
    rng0, bpT, fq]

/-- C4 amended: the expansion step first consults the selection node's own
counters: only when `visits > 0` and children exist does it collect the
children with `visits = 0` and pick one of them through the random source
(`none` here means the expansion node is the selection node itself); when
the selection node is unvisited — as the root is in the first iteration — or
childless, or when all children are visited, the expansion node is the
selection node itself; the tree shape never changes in any iteration. -/
theorem spec_C4_amended :
    (∀ (n : GTree) (rng : Rng), n.visits = 0 → expPick n rng = (none, rng)) ∧
    (∀ (n : GTree) (rng rng' : Rng) (j : ℕ) (c : GTree),
      expPick n rng = (some (j, c), rng') → c.visits = 0 ∧ n.kids.fget j = some c) ∧
    (∀ (n : GTree) (rng : Rng), unvisF n.kids 0 = [] → expPick n rng = (none, rng)) ∧
    (∀ (w : ℝ) (n : ℕ) (t : GTree) (rng : Rng), skelT ((mctsIterate w n t rng).1) = skelT t) := by
  refine ⟨?_, ?_, ?_, fun w n t rng => skel_mctsIterate w n t rng⟩
  · intro n rng h
    rw [expPick, if_neg]
    simp [h]
  · intro n rng rng' j c h
    rw [expPick] at h
    split at h
    · rw [mctsExpand] at h
      split at h
      · simp at h
      · rename_i x xs heq
        simp only [Prod.mk.injEq, Option.some_inj] at h
        have hmem : ((x :: xs).get ⟨rng.draw % (x :: xs).length, Nat.mod_lt _ (Nat.succ_pos _)⟩)
            ∈ (x :: xs) := List.get_mem _ _ _
        rw [h.1] at hmem
        rw [← heq] at hmem
        have := unvisF_mem n.kids 0 j c hmem
        exact ⟨this.2.2, by simpa using this.2.1⟩
    · simp at h
  · intro n rng h
    rw [expPick]
    split
    · rw [mctsExpand, h]
    · rfl

/-- Concrete instantiation of `spec_C4_amended`: on a visited root whose
second child is unvisited, the expansion step picks exactly that child. -/
theorem spec_C4_witness :
    (GTree.node 2 (some (fq 7)) false 0 0 .nil).visits = 0 ∧
    exMix.kids.fget 1 = some (.node 2 (some (fq 7)) false 0 0 .nil) :=
  spec_C4_amended.2.1 exMix rng0 rng0.next 1 (.node 2 (some (fq 7)) false 0 0 .nil) rfl

/-! ### C3: what the best-child routine actually returns -/

/-- A UCB score is never `-inf`. -/
theorem calcUcb_ne_bot (visits wins : ℕ) (pv : Option ℕ) (w : ℝ) :
    calcUcb visits wins pv w ≠ ⊥ := by
  rw [calcUcb.eq_def]
  split
  · exact top_ne_bot
  · match pv with
    | none => rw [← EReal.coe_add]; exact EReal.coe_ne_bot _
    | some 0 => rw [EReal.coe_add_top]; exact top_ne_bot
    | some (k + 1) => rw [← EReal.coe_add]; exact EReal.coe_ne_bot _

/-- The first unvisited entry of a forest is an unvisited child at its
recorded index. -/
theorem firstUnvisF_mem (f : GForest) : ∀ (idx j : ℕ) (c : GTree),
    firstUnvisF f idx = some (j, c) → idx ≤ j ∧ f.fget (j - idx) = some c ∧ c.visits = 0 := by
  cases f with
  | nil => intro idx j c h; simp [firstUnvisF] at h
  | cons d ds =>
    intro idx j c h
    rw [firstUnvisF] at h
    split at h
    · simp only [Option.some_inj, Prod.mk.injEq] at h
      obtain ⟨rfl, rfl⟩ := h
      refine ⟨le_refl _, ?_, by assumption⟩
      simp [GForest.fget]
    · obtain ⟨h1, h2, h3⟩ := firstUnvisF_mem ds (idx + 1) j c h
      refine ⟨by omega, ?_, h3⟩
      have : j - idx = (j - (idx + 1)) + 1 := by omega
      rw [this]
      simpa [GForest.fget] using h2

/-- As soon as the scan reaches a child with `visits = 0`, it returns it:
the loop's early return fires at the first unvisited child. -/
theorem gbcLoop_first (pv : ℕ) (w : ℝ) (f : GForest) : ∀ (idx : ℕ) (best : EReal)
    (acc : List (ℕ × GTree)) (j : ℕ) (c : GTree),
    firstUnvisF f idx = some (j, c) → gbcLoop pv w f idx best acc = .inl (j, c) := by
  cases f with
  | nil => intro idx best acc j c h; simp [firstUnvisF] at h
  | cons d ds =>
    intro idx best acc j c h
    rw [firstUnvisF] at h
    rw [gbcLoop]
    split at h
    · simp only [Option.some_inj] at h
      rename_i hv
      rw [if_pos hv, h]
    · rename_i hv
      rw [if_neg hv]
      simp only []
      split
      · exact gbcLoop_first pv w ds (idx + 1) _ _ j c h
      · split
        · exact gbcLoop_first pv w ds (idx + 1) _ _ j c h
        · exact gbcLoop_first pv w ds (idx + 1) _ _ j c h

/-- Every entry of the completed scan's candidate list comes from the
initial accumulator or is a visited child of the forest at its index. -/
theorem gbcLoop_inr (pv : ℕ) (w : ℝ) (f : GForest) : ∀ (idx : ℕ) (best b' : EReal)
    (acc acc' : List (ℕ × GTree)),
    gbcLoop pv w f idx best acc = .inr (b', acc') → ∀ x ∈ acc',
      x ∈ acc ∨ ∃ k, f.fget k = some x.2 ∧ x.1 = idx + k ∧ x.2.visits ≠ 0 := by
  cases f with
  | nil =>
    intro idx best b' acc acc' h x hx
    rw [gbcLoop] at h
    simp only [Sum.inr.injEq, Prod.mk.injEq] at h
    rw [← h.2] at hx
    exact Or.inl hx
  | cons d ds =>
    intro idx best b' acc acc' h x hx
    rw [gbcLoop] at h
    split at h
    · simp at h
    · rename_i hv
      simp only [] at h
      split at h
      · rcases gbcLoop_inr pv w ds (idx + 1) _ b' _ acc' h x hx with h1 | ⟨k, hk⟩
        · simp only [List.mem_singleton] at h1
          refine Or.inr ⟨0, ?_⟩
          rw [h1]
          simpa [GForest.fget] using hv
        · exact Or.inr ⟨k + 1, by simpa [GForest.fget, Nat.add_assoc, Nat.add_comm 1 k] using hk⟩
      · split at h
        · rcases gbcLoop_inr pv w ds (idx + 1) _ b' _ acc' h x hx with h1 | ⟨k, hk⟩
          · rcases List.mem_append.mp h1 with h2 | h2
            · exact Or.inl h2
            · simp only [List.mem_singleton] at h2
              refine Or.inr ⟨0, ?_⟩
              rw [h2]
              simpa [GForest.fget] using hv
          · exact Or.inr ⟨k + 1, by simpa [GForest.fget, Nat.add_assoc, Nat.add_comm 1 k] using hk⟩
        · rcases gbcLoop_inr pv w ds (idx + 1) _ b' _ acc' h x hx with h1 | ⟨k, hk⟩
          · exact Or.inl h1
          · exact Or.inr ⟨k + 1, by simpa [GForest.fget, Nat.add_assoc, Nat.add_comm 1 k] using hk⟩

/-- A completed scan cannot end with an empty candidate list unless it
started with an empty forest and an empty accumulator: the first processed
child always beats the initial `-inf`. -/
theorem gbcLoop_inr_ne (pv : ℕ) (w : ℝ) (f : GForest) : ∀ (idx : ℕ) (best b' : EReal)
    (acc : List (ℕ × GTree)), (acc = [] → best = ⊥) →
    gbcLoop pv w f idx best acc = .inr (b', []) → f = .nil ∧ acc = [] := by
  cases f with
  | nil =>
    intro idx best b' acc hinv h
    rw [gbcLoop] at h
    simp only [Sum.inr.injEq, Prod.mk.injEq] at h
    exact ⟨rfl, h.2⟩
  | cons d ds =>
    intro idx best b' acc hinv h
    rw [gbcLoop] at h
    split at h
    · simp at h
    · rename_i hv
      simp only [] at h
      split at h
      · have := gbcLoop_inr_ne pv w ds (idx + 1) _ b' [(idx, d)]
          (by intro hc; simp at hc) h
        simp at this
      · split at h
        · have := gbcLoop_inr_ne pv w ds (idx + 1) _ b' (acc ++ [(idx, d)])
            (by intro hc; simp at hc) h
          simp at this
        · rename_i hlt heq
          have hne : acc ≠ [] := by
            intro hc
            have hb := hinv hc
            rw [hb] at hlt
            exact hlt (bot_lt_iff_ne_bot.mpr (calcUcb_ne_bot d.visits d.wins (some pv) w))
          have := gbcLoop_inr_ne pv w ds (idx + 1) best b' acc (fun hc => absurd hc hne) h
          exact absurd this.2 hne

/-- An early return of the scan is an unvisited child of the forest. -/
theorem gbcLoop_inl (pv : ℕ) (w : ℝ) (f : GForest) : ∀ (idx j : ℕ) (c : GTree)
    (best : EReal) (acc : List (ℕ × GTree)),
    gbcLoop pv w f idx best acc = .inl (j, c) →
      ∃ k, f.fget k = some c ∧ j = idx + k ∧ c.visits = 0 := by
  cases f with
  | nil => intro idx j c best acc h; rw [gbcLoop] at h; simp at h
  | cons d ds =>
    intro idx j c best acc h
    rw [gbcLoop] at h
    split at h
    · simp only [Sum.inl.injEq, Prod.mk.injEq] at h
      refine ⟨0, ?_, by omega, ?_⟩
      · rw [← h.2]; simp [GForest.fget]
      · rw [← h.2]; assumption
    · simp only [] at h
      split at h
      · obtain ⟨k, hk⟩ := gbcLoop_inl pv w ds (idx + 1) j c _ _ h
        exact ⟨k + 1, by simpa [GForest.fget, Nat.add_assoc, Nat.add_comm 1 k] using hk⟩
      · split at h
        · obtain ⟨k, hk⟩ := gbcLoop_inl pv w ds (idx + 1) j c _ _ h
          exact ⟨k + 1, by simpa [GForest.fget, Nat.add_assoc, Nat.add_comm 1 k] using hk⟩
        · obtain ⟨k, hk⟩ := gbcLoop_inl pv w ds (idx + 1) j c _ _ h
          exact ⟨k + 1, by simpa [GForest.fget, Nat.add_assoc, Nat.add_comm 1 k] using hk⟩

/-- C3 counterexample: on a root with a visited first child and an
unvisited second child, `get_best_child` with `exploration_weight = 0`
returns the **unvisited** child — the early `visits == 0` return fires even
though a visited sibling exists, contradicting the claim. -/
theorem spec_C3_counterexample :
    (getBestChild exMix 0 rng0).1 = some (1, .node 2 (some (fq 7)) false 0 0 .nil) ∧
    (GTree.node 2 (some (fq 7)) false 0 0 .nil).visits = 0 ∧
    0 < (GTree.node 1 (some (fq 5)) false 1 1 .nil).visits ∧
    exMix.kids.fget 0 = some (.node 1 (some (fq 5)) false 1 1 .nil) := by
  refine ⟨?_, by decide, by decide, by decide⟩
  rw [getBestChild]
  rw [gbcLoop_first exMix.visits 0 exMix.kids 0 ⊥ [] 1
    (.node 2 (some (fq 7)) false 0 0 .nil) (by decide)]

/-- C3 amended: with any exploration weight (in particular `0`) the
best-child routine returns the *first* child in document order with
`visits = 0` whenever one exists, regardless of its siblings' statistics;
only when every child is visited does it compare UCB scores, and then it
returns one of the children (chosen by the random source among the tied
maximal ones); on a node with children the routine always returns a child. -/
theorem spec_C3_amended :
    (∀ (n : GTree) (w : ℝ) (rng : Rng) (j : ℕ) (c : GTree),
      firstUnvisF n.kids 0 = some (j, c) →
        (getBestChild n w rng).1 = some (j, c) ∧ c.visits = 0 ∧ n.kids.fget j = some c) ∧
    (∀ (n : GTree) (w : ℝ) (rng : Rng),
      n.kids.isNil = false → ((getBestChild n w rng).1).isSome = true) ∧
    (∀ (n : GTree) (w : ℝ) (rng : Rng) (j : ℕ) (c : GTree),
      (getBestChild n w rng).1 = some (j, c) → ∃ k, n.kids.fget k = some c) := by
  refine ⟨?_, ?_, ?_⟩
  · intro n w rng j c h
    have hm := firstUnvisF_mem n.kids 0 j c h
    refine ⟨?_, hm.2.2, by simpa using hm.2.1⟩
    rw [getBestChild, gbcLoop_first n.visits w n.kids 0 ⊥ [] j c h]
  · intro n w rng hnil
    rw [getBestChild]
    rcases hg : gbcLoop n.visits w n.kids 0 ⊥ [] with jc | ba
    · simp
    · rcases ba with ⟨b', acc'⟩
      cases acc' with
      | nil =>
        have := gbcLoop_inr_ne n.visits w n.kids 0 ⊥ b' [] (fun _ => rfl) hg
        rw [this.1] at hnil
        simp [GForest.isNil] at hnil
      | cons x xs => simp
  · intro n w rng j c h
    rw [getBestChild] at h
    rcases hg : gbcLoop n.visits w n.kids 0 ⊥ [] with jc | ba
    · rcases jc with ⟨j', c'⟩
      rw [hg] at h
      simp only [Option.some_inj, Prod.mk.injEq] at h
      obtain ⟨k, hk⟩ := gbcLoop_inl n.visits w n.kids 0 j' c' ⊥ [] hg
      exact ⟨k, by rw [← h.2]; exact hk.1⟩
    · rcases ba with ⟨b', acc'⟩
      cases acc' with
      | nil => rw [hg] at h; simp at h
      | cons x xs =>
        rw [hg] at h
        simp only [Option.some_inj] at h
        have hmem : ((x :: xs).get ⟨rng.draw % (x :: xs).length, Nat.mod_lt _ (Nat.succ_pos _)⟩)
            ∈ (x :: xs) := List.get_mem _ _ _
        rw [h] at hmem
        rcases gbcLoop_inr n.visits w n.kids 0 ⊥ b' [] (x :: xs) hg (j, c) hmem with h1 | ⟨k, hk⟩
        · simp at h1
        · exact ⟨k, hk.1⟩

/-- Concrete instantiation of `spec_C3_amended`: on a root with two
unvisited children the routine returns the first one. -/
theorem spec_C3_witness :
    (getBestChild exTwo 1.4 rng0).1 = some (0, leafT 1 1) ∧
    (leafT 1 1).visits = 0 ∧ exTwo.kids.fget 0 = some (leafT 1 1) :=
  spec_C3_amended.1 exTwo 1.4 rng0 0 (leafT 1 1) rfl

/-! ### C9: what happens without configuration validation -/

/-- A freshly reset node has no visits. -/
theorem resetStats_visits (t : GTree) : (resetStats t).visits = 0 := by
  cases t with
  | node i v pr vs w cs => rfl

/-- With `mcts_iterations = 0` the loop body never runs: the returned tree
is exactly the reset tree, and on a root with children the final reporting
step fails (the reset first child is unvisited, `get_best_child` returns it,
and the win-rate division by `visits = 0` raises) — no error is raised
before or instead of the loop. -/
theorem runMCTS_zero_iter (t : GTree) (w : ℝ) (rng : Rng) :
    (runMCTS t 0 w rng).1 = resetStats t ∧
    (t.kids.isNil = false → (runMCTS t 0 w rng).2 = none) := by
  constructor
  · rw [runMCTS]
    simp only [mctsIterate]
    rcases hg : getBestChild (resetStats t) 0 rng with ⟨o, rng'⟩
    cases o with
    | none => rfl
    | some jc =>
      rcases jc with ⟨j, c⟩
      simp only []
      split <;> rfl
  · intro hnil
    cases t with
    | node i v pr vs wn cs =>
      cases cs with
      | nil => simp [GForest.isNil, GTree.kids] at hnil
      | cons c cs' =>
        rw [runMCTS]
        simp only [mctsIterate, resetStats, resetStatsF]
        have hfu : firstUnvisF (GForest.cons (resetStats c) (resetStatsF cs'))
            ((0 : ℕ)) = some (0, resetStats c) := by
          rw [firstUnvisF, if_pos (resetStats_visits c)]
        simp only [GTree.kids, GTree.visits]
        rw [getBestChild]
        simp only [GTree.kids, GTree.visits]
        rw [gbcLoop_first 0 0 _ 0 ⊥ [] 0 (resetStats c) hfu]
        cases c with
        | node ci cv cpr cvs cw ccs => simp [resetStats]

/-- C9 counterexample: running MCTS with `mcts_iterations = 0` does not
raise any `ConfigError`: the iteration loop simply runs zero times (the
statistics stay at their reset values) and the run fails only afterwards,
in the final report, with the division by zero on the unvisited best child. -/
theorem spec_C9_counterexample :
    (runMCTS exTwo 0 1.4 rng0).1 = exTwo ∧ (runMCTS exTwo 0 1.4 rng0).2 = none := by
  constructor
  · rw [(runMCTS_zero_iter exTwo 1.4 rng0).1]
    decide
  · exact (runMCTS_zero_iter exTwo 1.4 rng0).2 (by decide)

/-- C9 amended: `run_mcts` validates nothing.  `mcts_iterations < 1` means
the loop body runs zero times and the run only fails afterwards (a
`ZeroDivisionError` in the final report whenever the root has children,
since the reset first child is unvisited); a negative `exploration_weight`
is accepted and the run completes normally (on a one-child root, two
iterations with weight `-1` return child id `1` with win rate `1`). -/
theorem spec_C9_amended :
    (∀ (t : GTree) (w : ℝ) (rng : Rng), (runMCTS t 0 w rng).1 = resetStats t) ∧
    (∀ (t : GTree) (w : ℝ) (rng : Rng),
      t.kids.isNil = false → (runMCTS t 0 w rng).2 = none) ∧
    (runMCTS exOne 2 (-1) rng0).2 = some (1, 1) := by
  refine ⟨fun t w rng => (runMCTS_zero_iter t w rng).1,
    fun t w rng h => (runMCTS_zero_iter t w rng).2 h, ?_⟩
  have hstate : mctsIterate (-1) 2 (resetStats exOne) rng0
      = (.node 0 none false 2 2 (.cons (.node 1 (some (fq 1)) false 1 1 .nil) .nil),
         ⟨rng0.seq, 2⟩) := by
    simp [mctsIterate, selRec, resetStats, resetStatsF, exOne, leafT, GForest.isNil,
      allVisitedF, GTree.kids, GTree.visits, expPick, mctsExpand, unvisF, simRec, simPick,
      GForest.flen, Rng.draw, Rng.next, rng0, bpT, bpF, fq]
  rw [runMCTS]
  simp only [hstate]
  rw [getBestChild]
  simp only [GTree.kids, GTree.visits]
  rw [gbcLoop]
  rw [if_neg (by decide)]
  simp only [GTree.visits, GTree.wins]
  rw [if_pos (bot_lt_iff_ne_bot.mpr (calcUcb_ne_bot 1 1 (some 2) 0))]
  rw [gbcLoop]
  simp only [List.length_cons, List.length_nil, Rng.draw, List.get]
  rw [if_neg (by decide)]
  simp only [GTree.tid, GTree.wins, GTree.visits]
  norm_num

/-- Concrete instantiation of `spec_C9_amended`: zero iterations on a
two-child root end in the division-by-zero report, not a `ConfigError`. -/
theorem spec_C9_witness : (runMCTS exTwo 0 2 rng0).2 = none :=
  spec_C9_amended.2.1 exTwo 2 rng0 (by decide)

/-! ### C8: the effect and frame of pruning -/

/-- `minimax` never changes the node's own `pruned` flag (only a parent
marks a child). -/
theorem mm_pruned (p mx : Bool) (t : GTree) (al be : XV) (r : Option XV) (t' : GTree)
    (h : minimax p mx t al be = some (r, t')) : t'.pruned = t.pruned := by
  cases t with
  | node i v pr vs w cs =>
    cases cs with
    | nil =>
      rw [minimax] at h
      simp only [Option.some_inj, Prod.mk.injEq] at h
      rw [← h.2]
    | cons c cs' =>
      rw [minimax] at h
      rcases hl : minimaxLoop p mx (.cons c cs') al be
          (some (if mx then (⊥ : XV) else ⊤)) none 0 with _ | ⟨r', b', f'⟩
      · rw [hl] at h; simp at h
      · rw [hl] at h
        simp only [Option.some_inj, Prod.mk.injEq] at h
        rw [← h.2]
        rfl

mutual
/-- Without pruning no node is ever marked pruned: a run from a clean tree
returns a clean tree. -/
theorem clean_mm (mx : Bool) (t : GTree) (al be : XV) (r : Option XV) (t' : GTree)
    (hc : cleanT t = true) (h : minimax false mx t al be = some (r, t')) :
    cleanT t' = true := by
  cases t with
  | node i v pr vs w cs =>
    simp only [cleanT, Bool.and_eq_true, Bool.not_eq_eq_eq_not, Bool.not_true] at hc
    cases cs with
    | nil =>
      rw [minimax] at h
      simp only [Option.some_inj, Prod.mk.injEq] at h
      rw [← h.2]
      simp [cleanT, hc.1, hc.2]
    | cons c cs' =>
      rw [minimax] at h
      rcases hl : minimaxLoop false mx (.cons c cs') al be
          (some (if mx then (⊥ : XV) else ⊤)) none 0 with _ | ⟨r', b', f'⟩
      · rw [hl] at h; simp at h
      · rw [hl] at h
        simp only [Option.some_inj, Prod.mk.injEq] at h
        rw [← h.2]
        have hf := clean_mmLoop mx (.cons c cs') al be
          (some (if mx then (⊥ : XV) else ⊤)) none 0 r' b' f' hc.2 hl
        simp [cleanT, hc.1, hf]

/-- Loop version of `clean_mm`. -/
theorem clean_mmLoop (mx : Bool) (f : GForest) (al be : XV) (acc : Option XV)
    (bidx : Option ℕ) (idx : ℕ) (r : Option XV) (b' : Option ℕ) (f' : GForest)
    (hc : cleanF f = true) (h : minimaxLoop false mx f al be acc bidx idx = some (r, b', f')) :
    cleanF f' = true := by
  cases f with
  | nil =>
    rw [minimaxLoop] at h
    simp only [Option.some_inj, Prod.mk.injEq] at h
    rw [← h.2.2]
    exact rfl
  | cons c cs =>
    simp only [cleanF, Bool.and_eq_true] at hc
    have hcp : c.pruned = false := by
      cases c with
      | node ci cv cpr cvs cw ccs =>
        have := hc.1
        simp only [cleanT, Bool.and_eq_true, Bool.not_eq_eq_eq_not, Bool.not_true] at this
        exact this.1
    rw [minimaxLoop] at h
    simp only [hcp, Bool.false_eq_true, if_false] at h
    rcases hm : minimax false (!mx) c al be with _ | ⟨cv, c'⟩
    · simp only [hm] at h
      exact Option.noConfusion h
    · simp only [hm] at h
      rcases hu : updFlag mx bidx cv acc with _ | upd
      · simp only [hu] at h
        exact Option.noConfusion h
      · simp only [hu] at h
        rcases hv : (if upd then cv else acc) with _ | v'
        · simp only [hv] at h
          exact Option.noConfusion h
        · simp only [hv, Bool.false_and, Bool.false_eq_true, if_false] at h
          rcases hl : minimaxLoop false mx cs (if mx then max al v' else al)
              (if mx then be else min be v') (some v') (if upd then some idx else bidx)
              (idx + 1) with _ | ⟨r2, b2, f2⟩
          · simp only [hl] at h
            exact Option.noConfusion h
          · simp only [hl, Option.some_inj, Prod.mk.injEq] at h
            rw [← h.2.2]
            have h1 := clean_mm (!mx) c al be cv c' hc.1 hm
            have h2 := clean_mmLoop mx cs _ _ _ _ _ r2 b2 f2 hc.2 hl
            simp [cleanF, h1, h2]
end

/-- A clean node equals its original after marking, apart from the flag. -/
theorem frameT_markPruned (c : GTree) (hc : cleanT c = true) :
    frameT c (markPruned c) = true := by
  cases c with
  | node i v pr vs w cs =>
    simp only [cleanT, Bool.and_eq_true, Bool.not_eq_eq_eq_not, Bool.not_true] at hc
    rw [hc.1]
    simp [markPruned, frameT]

/-- Marking a whole clean forest satisfies the frame check. -/
theorem frameF_markAll (f : GForest) (hc : cleanF f = true) :
    frameF f (markAllPruned f) = true := by
  cases f with
  | nil => rfl
  | cons c cs =>
    simp only [cleanF, Bool.and_eq_true] at hc
    rw [markAllPruned, frameF]
    simp [frameT_markPruned c hc.1, frameF_markAll cs hc.2]

mutual
/-- A clean tree trivially satisfies the pruned-suffix shape. -/
theorem clean_sufT (t : GTree) (hc : cleanT t = true) : sufT t = true := by
  cases t with
  | node i v pr vs w cs =>
    simp only [cleanT, Bool.and_eq_true, Bool.not_eq_eq_eq_not, Bool.not_true] at hc
    rw [sufT]
    exact clean_sufF cs hc.2

/-- Forest version of `clean_sufT`. -/
theorem clean_sufF (f : GForest) (hc : cleanF f = true) : sufF f = true := by
  cases f with
  | nil => rfl
  | cons c cs =>
    simp only [cleanF, Bool.and_eq_true] at hc
    have hcp : c.pruned = false := by
      cases c with
      | node ci cv cpr cvs cw ccs =>
        have := hc.1
        simp only [cleanT, Bool.and_eq_true, Bool.not_eq_eq_eq_not, Bool.not_true] at this
        exact this.1
    rw [sufF, hcp]
    simp [clean_sufT c hc.1, clean_sufF cs hc.2]
end

/-- Marking a whole clean forest yields an all-pruned forest with the
suffix shape everywhere.  -/
theorem sufF_markAll (f : GForest) (hc : cleanF f = true) :
    sufF (markAllPruned f) = true ∧ allPrunedF (markAllPruned f) = true := by
  cases f with
  | nil => exact ⟨rfl, rfl⟩
  | cons c cs =>
    simp only [cleanF, Bool.and_eq_true] at hc
    have ih := sufF_markAll cs hc.2
    constructor
    · rw [markAllPruned, sufF]
      have h1 : (markPruned c).pruned = true := by
        cases c with
        | node ci cv cpr cvs cw ccs => rfl
      rw [h1]
      have h2 : sufT (markPruned c) = true := by
        cases c with
        | node ci cv cpr cvs cw ccs =>
          have := hc.1
          simp only [cleanT, Bool.and_eq_true] at this
          rw [markPruned, sufT]
          exact clean_sufF ccs this.2
      simp [ih.1, ih.2, h2]
    · rw [markAllPruned, allPrunedF]
      have h1 : (markPruned c).pruned = true := by
        cases c with
        | node ci cv cpr cvs cw ccs => rfl
      simp [h1, ih.2]

mutual
/-- Frame property of a pruning run: every newly marked child keeps its
entire subtree untouched (tree level). -/
theorem frame_mm (mx : Bool) (t : GTree) (al be : XV) (r : Option XV) (t' : GTree)
    (hc : cleanT t = true) (h : minimax true mx t al be = some (r, t')) :
    frameT t t' = true := by
  cases t with
  | node i v pr vs w cs =>
    simp only [cleanT, Bool.and_eq_true, Bool.not_eq_eq_eq_not, Bool.not_true] at hc
    cases cs with
    | nil =>
      rw [minimax] at h
      simp only [Option.some_inj, Prod.mk.injEq] at h
      rw [← h.2, hc.1]
      simp [frameT, frameF]
    | cons c cs' =>
      rw [minimax] at h
      rcases hl : minimaxLoop true mx (.cons c cs') al be
          (some (if mx then (⊥ : XV) else ⊤)) none 0 with _ | ⟨r', b', f'⟩
      · rw [hl] at h; simp at h
      · rw [hl] at h
        simp only [Option.some_inj, Prod.mk.injEq] at h
        rw [← h.2, hc.1]
        simp only [frameT, Bool.and_false, Bool.false_eq_true, if_false]
        exact frame_mmLoop mx (.cons c cs') al be _ none 0 r' b' f' hc.2 hl

/-- Frame property of a pruning run (loop level). -/
theorem frame_mmLoop (mx : Bool) (f : GForest) (al be : XV) (acc : Option XV)
    (bidx : Option ℕ) (idx : ℕ) (r : Option XV) (b' : Option ℕ) (f' : GForest)
    (hc : cleanF f = true) (h : minimaxLoop true mx f al be acc bidx idx = some (r, b', f')) :
    frameF f f' = true := by
  cases f with
  | nil =>
    rw [minimaxLoop] at h
    simp only [Option.some_inj, Prod.mk.injEq] at h
    rw [← h.2.2]
    rfl
  | cons c cs =>
    simp only [cleanF, Bool.and_eq_true] at hc
    have hcp : c.pruned = false := by
      cases c with
      | node ci cv cpr cvs cw ccs =>
        have := hc.1
        simp only [cleanT, Bool.and_eq_true, Bool.not_eq_eq_eq_not, Bool.not_true] at this
        exact this.1
    rw [minimaxLoop] at h
    simp only [hcp, Bool.false_eq_true, if_false] at h
    rcases hm : minimax true (!mx) c al be with _ | ⟨cv, c'⟩
    · simp only [hm] at h
      exact Option.noConfusion h
    · simp only [hm] at h
      rcases hu : updFlag mx bidx cv acc with _ | upd
      · simp only [hu] at h
        exact Option.noConfusion h
      · simp only [hu] at h
        rcases hv : (if upd then cv else acc) with _ | v'
        · simp only [hv] at h
          exact Option.noConfusion h
        · simp only [hv, Bool.true_and] at h
          have hfc : frameT c c' = true := frame_mm (!mx) c al be cv c' hc.1 hm
          by_cases hcut : ((if mx then be else min be v') ≤ (if mx then max al v' else al))
          · rw [if_pos (by simp [hcut])] at h
            simp only [Option.some_inj, Prod.mk.injEq] at h
            rw [← h.2.2]
            rw [frameF]
            simp [hfc, frameF_markAll cs hc.2]
          · rw [if_neg (by simp [hcut])] at h
            rcases hl : minimaxLoop true mx cs (if mx then max al v' else al)
                (if mx then be else min be v') (some v') (if upd then some idx else bidx)
                (idx + 1) with _ | ⟨r2, b2, f2⟩
            · simp only [hl] at h
              exact Option.noConfusion h
            · simp only [hl, Option.some_inj, Prod.mk.injEq] at h
              rw [← h.2.2]
              rw [frameF]
              simp [hfc, frame_mmLoop mx cs _ _ _ _ _ r2 b2 f2 hc.2 hl]
end

mutual
/-- A pruning run from a clean tree leaves the pruned children of every node
as a contiguous final segment of its child list (tree level). -/
theorem suf_mm (mx : Bool) (t : GTree) (al be : XV) (r : Option XV) (t' : GTree)
    (hc : cleanT t = true) (h : minimax true mx t al be = some (r, t')) :
    sufT t' = true := by
  cases t with
  | node i v pr vs w cs =>
    simp only [cleanT, Bool.and_eq_true, Bool.not_eq_eq_eq_not, Bool.not_true] at hc
    cases cs with
    | nil =>
      rw [minimax] at h
      simp only [Option.some_inj, Prod.mk.injEq] at h
      rw [← h.2]
      rfl
    | cons c cs' =>
      rw [minimax] at h
      rcases hl : minimaxLoop true mx (.cons c cs') al be
          (some (if mx then (⊥ : XV) else ⊤)) none 0 with _ | ⟨r', b', f'⟩
      · rw [hl] at h; simp at h
      · rw [hl] at h
        simp only [Option.some_inj, Prod.mk.injEq] at h
        rw [← h.2, sufT]
        exact suf_mmLoop mx (.cons c cs') al be _ none 0 r' b' f' hc.2 hl

/-- Loop version of `suf_mm`. -/
theorem suf_mmLoop (mx : Bool) (f : GForest) (al be : XV) (acc : Option XV)
    (bidx : Option ℕ) (idx : ℕ) (r : Option XV) (b' : Option ℕ) (f' : GForest)
    (hc : cleanF f = true) (h : minimaxLoop true mx f al be acc bidx idx = some (r, b', f')) :
    sufF f' = true := by
  cases f with
  | nil =>
    rw [minimaxLoop] at h
    simp only [Option.some_inj, Prod.mk.injEq] at h
    rw [← h.2.2]
    rfl
  | cons c cs =>
    simp only [cleanF, Bool.and_eq_true] at hc
    have hcp : c.pruned = false := by
      cases c with
      | node ci cv cpr cvs cw ccs =>
        have := hc.1
        simp only [cleanT, Bool.and_eq_true, Bool.not_eq_eq_eq_not, Bool.not_true] at this
        exact this.1
    rw [minimaxLoop] at h
    simp only [hcp, Bool.false_eq_true, if_false] at h
    rcases hm : minimax true (!mx) c al be with _ | ⟨cv, c'⟩
    · simp only [hm] at h
      exact Option.noConfusion h
    · simp only [hm] at h
      rcases hu : updFlag mx bidx cv acc with _ | upd
      · simp only [hu] at h
        exact Option.noConfusion h
      · simp only [hu] at h
        rcases hv : (if upd then cv else acc) with _ | v'
        · simp only [hv] at h
          exact Option.noConfusion h
        · simp only [hv, Bool.true_and] at h
          have hcp' : c'.pruned = false := by
            rw [mm_pruned true (!mx) c al be cv c' hm]
            exact hcp
          have hsc : sufT c' = true := suf_mm (!mx) c al be cv c' hc.1 hm
          by_cases hcut : ((if mx then be else min be v') ≤ (if mx then max al v' else al))
          · rw [if_pos (by simp [hcut])] at h
            simp only [Option.some_inj, Prod.mk.injEq] at h
            rw [← h.2.2]
            rw [sufF, hcp']
            simp [hsc, sufF_markAll cs hc.2]
          · rw [if_neg (by simp [hcut])] at h
            rcases hl : minimaxLoop true mx cs (if mx then max al v' else al)
                (if mx then be else min be v') (some v') (if upd then some idx else bidx)
                (idx + 1) with _ | ⟨r2, b2, f2⟩
            · simp only [hl] at h
              exact Option.noConfusion h
            · simp only [hl, Option.some_inj, Prod.mk.injEq] at h
              rw [← h.2.2]
              rw [sufF, hcp']
              simp [hsc, suf_mmLoop mx cs _ _ _ _ _ r2 b2 f2 hc.2 hl]
end

/-- C8: with pruning disabled no node is ever marked pruned (a clean tree
stays clean); with pruning enabled, from a clean tree, every newly marked
child's subtree is bit-for-bit the original apart from the mark itself (it
is never recursed into, never mutated, never assigned a computed value),
and at every node the marked children form a contiguous final segment of
the child order; moreover, as soon as `beta <= alpha` holds after a child
is processed, the loop returns at once with all the remaining children
marked and unvisited. -/
theorem spec_C8_pruning_frame :
    (∀ (mx : Bool) (t : GTree) (al be : XV) (r : Option XV) (t' : GTree),
      cleanT t = true → minimax false mx t al be = some (r, t') → cleanT t' = true) ∧
    (∀ (mx : Bool) (t : GTree) (al be : XV) (r : Option XV) (t' : GTree),
      cleanT t = true → minimax true mx t al be = some (r, t') → frameT t t' = true) ∧
    (∀ (mx : Bool) (t : GTree) (al be : XV) (r : Option XV) (t' : GTree),
      cleanT t = true → minimax true mx t al be = some (r, t') → sufT t' = true) ∧
    (∀ (mx : Bool) (c : GTree) (cs : GForest) (al be : XV) (acc : Option XV)
      (bidx : Option ℕ) (idx : ℕ) (cv : Option XV) (c' : GTree) (upd : Bool) (v' : XV),
      c.pruned = false → minimax true (!mx) c al be = some (cv, c') →
      updFlag mx bidx cv acc = some upd → (if upd then cv else acc) = some v' →
      (if mx then be else min be v') ≤ (if mx then max al v' else al) →
      minimaxLoop true mx (.cons c cs) al be acc bidx idx =
        some (some v', (if upd then some idx else bidx), .cons c' (markAllPruned cs))) := by
  refine ⟨clean_mm, frame_mm, suf_mm, ?_⟩
  intro mx c cs al be acc bidx idx cv c' upd v' hcp hm hu hv hcut
  rw [minimaxLoop]
  simp only [hcp, Bool.false_eq_true, if_false, hm, hu, hv, Bool.true_and]
  rw [if_pos (by simp [hcut])]

/-- Concrete instantiation of `spec_C8_pruning_frame` on the spec's worked
example: the pruning run marks exactly the `9` leaf and leaves its state
untouched; the no-pruning run marks nothing. -/
theorem spec_C8_witness :
    cleanT ((Option.getD ((minimax false true exAB ⊥ ⊤).map Prod.snd) exAB)) = true ∧
    frameT exAB ((Option.getD ((minimax true true exAB ⊥ ⊤).map Prod.snd) exAB)) = true ∧
    sufT ((Option.getD ((minimax true true exAB ⊥ ⊤).map Prod.snd) exAB)) = true := by
  refine ⟨?_, ?_, ?_⟩
  · exact spec_C8_pruning_frame.1 true exAB ⊥ ⊤
      (some (fq 3)) _ (by decide) (by decide)
  · exact spec_C8_pruning_frame.2.1 true exAB ⊥ ⊤
      (some (fq 3)) _ (by decide) (by decide)
  · exact spec_C8_pruning_frame.2.2.1 true exAB ⊥ ⊤
      (some (fq 3)) _ (by decide) (by decide)

/-! ### C2: the evaluation contract, via refinement against the spec text -/

mutual
/-- On a well-formed clean tree, `minimax` always succeeds and returns a
finite value (tree level). -/
theorem mmFin (p mx : Bool) (t : GTree) (al be : XV) (hw : wfT t = true)
    (hc : cleanT t = true) :
    ∃ (q : ℚ) (t' : GTree), minimax p mx t al be = some (some (fq q), t') := by
  cases t with
  | node i v pr vs w cs =>
    cases cs with
    | nil =>
      rw [wfT] at hw
      cases v with
      | none => exact absurd hw (by rw [finOpt]; simp)
      | some x =>
        rw [finOpt] at hw
        obtain ⟨q, rfl⟩ := isFin_iff.mp hw
        exact ⟨q, _, by rw [minimax]⟩
    | cons c cs' =>
      simp only [cleanT, Bool.and_eq_true] at hc
      rw [wfT] at hw
      have hwf : wfF (.cons c cs') = true := by rw [wfF]; exact hw
      obtain ⟨r, b', f', hl, hr⟩ := mmFinLoop p mx (.cons c cs') al be
        (if mx then (⊥ : XV) else ⊤) none 0 hwf hc.2 (fun _ => rfl) (fun hb => absurd rfl hb)
      rcases hr with ⟨q, rfl⟩ | ⟨hnil, _⟩
      · exact ⟨q, _, by rw [minimax, hl]⟩
      · exact absurd hnil (by simp)

/-- On a well-formed clean forest the loop always succeeds; the resulting
value is finite unless the forest was empty (then it is the incoming
accumulator). -/
theorem mmFinLoop (p mx : Bool) (f : GForest) (al be : XV) (v : XV)
    (bidx : Option ℕ) (idx : ℕ) (hw : wfF f = true) (hc : cleanF f = true)
    (hv : bidx = none → v = (if mx then (⊥ : XV) else ⊤))
    (hfin : bidx ≠ none → ∃ q, v = fq q) :
    ∃ (r : XV) (b' : Option ℕ) (f' : GForest),
      minimaxLoop p mx f al be (some v) bidx idx = some (some r, b', f') ∧
        ((∃ q, r = fq q) ∨ (f = .nil ∧ r = v)) := by
  cases f with
  | nil => exact ⟨v, bidx, .nil, by rw [minimaxLoop], Or.inr ⟨rfl, rfl⟩⟩
  | cons c cs =>
    simp only [wfF, Bool.and_eq_true] at hw
    simp only [cleanF, Bool.and_eq_true] at hc
    have hcp : c.pruned = false := by
      cases c with
      | node ci cv cpr cvs cw ccs =>
        have := hc.1
        simp only [cleanT, Bool.and_eq_true, Bool.not_eq_eq_eq_not, Bool.not_true] at this
        exact this.1
    obtain ⟨qc, c', hm⟩ := mmFin p (!mx) c al be hw.1 hc.1
    have hupd : ∃ upd, updFlag mx bidx (some (fq qc)) (some v) = some upd := by
      cases bidx with
      | none => exact ⟨true, rfl⟩
      | some k => exact ⟨_, rfl⟩
    obtain ⟨upd, hu⟩ := hupd
    have hbidx' : upd = false → bidx ≠ none := by
      intro hif hb
      rw [hb] at hu
      rw [updFlag] at hu
      simp only [Option.some_inj] at hu
      rw [← hu] at hif
      exact Bool.noConfusion hif
    have hvfin : ∃ q', (if upd then (some (fq qc) : Option XV) else some v) = some (fq q') := by
      cases hif : upd with
      | true => exact ⟨qc, by simp⟩
      | false =>
        obtain ⟨q', hq'⟩ := hfin (hbidx' hif)
        exact ⟨q', by simp [hq']⟩
    obtain ⟨q', hq'⟩ := hvfin
    have hvnone : (if upd then some idx else bidx) ≠ none := by
      cases hif : upd with
      | true => simp
      | false => simpa using hbidx' hif
    by_cases hcut : (p && decide ((if mx then be else min be (fq q')) ≤
        (if mx then max al (fq q') else al))) = true
    · refine ⟨fq q', (if upd then some idx else bidx), .cons c' (markAllPruned cs), ?_,
        Or.inl ⟨q', rfl⟩⟩
      rw [minimaxLoop]
      simp only [hcp, Bool.false_eq_true, if_false, hm, hu, hq']
      rw [if_pos hcut]
    · obtain ⟨r2, b2, f2, hl2, hr2⟩ := mmFinLoop p mx cs
        (if mx then max al (fq q') else al) (if mx then be else min be (fq q'))
        (fq q') (if upd then some idx else bidx) (idx + 1) hw.2 hc.2
        (fun hb => absurd hb hvnone) (fun _ => ⟨q', rfl⟩)
      refine ⟨r2, b2, .cons c' f2, ?_, ?_⟩
      · rw [minimaxLoop]
        simp only [hcp, Bool.false_eq_true, if_false, hm, hu, hq']
        rw [if_neg (by simpa using hcut)]
        rw [hl2]
      · rcases hr2 with h | ⟨_, rfl⟩
        · exact Or.inl h
        · exact Or.inl ⟨q', rfl⟩
end

mutual
/-- The code's `minimax` coincides with the contract `mmSpec` written from
the spec's words, on every well-formed clean tree: same value, same final
state (tree level).  In particular the unconditional first-child acceptance
of the code equals the spec's strict-improvement rule, because against the
`-inf`/`+inf` initial value a finite first child value is always a strict
improvement. -/
theorem mmSpecEqT (p mx : Bool) (t : GTree) (al be : XV) (hw : wfT t = true)
    (hc : cleanT t = true) :
    minimax p mx t al be = (mmSpec p mx t al be).map (fun x => (some x.1, x.2)) := by
  cases t with
  | node i v pr vs w cs =>
    cases cs with
    | nil =>
      rw [wfT] at hw
      cases v with
      | none => exact absurd hw (by rw [finOpt]; simp)
      | some x => rw [minimax, mmSpec]; rfl
    | cons c cs' =>
      simp only [cleanT, Bool.and_eq_true] at hc
      rw [wfT] at hw
      have hwf : wfF (.cons c cs') = true := by rw [wfF]; exact hw
      rw [minimax, mmSpec]
      rw [mmSpecEqF p mx (.cons c cs') al be (if mx then (⊥ : XV) else ⊤) none 0 hwf hc.2
        (fun _ => rfl) (fun hb => absurd rfl hb)]
      rcases hsl : mmSpecLoop p mx (.cons c cs') al be (if mx then (⊥ : XV) else ⊤) none 0
        with _ | ⟨r, b', f'⟩
      · rfl
      · rfl

/-- Loop version of `mmSpecEqT`, carrying the relation between the loop
states: the running `value` is the `-inf`/`+inf` initialization while no
best child is recorded, and a finite value afterwards. -/
theorem mmSpecEqF (p mx : Bool) (f : GForest) (al be : XV) (v : XV)
    (bidx : Option ℕ) (idx : ℕ) (hw : wfF f = true) (hc : cleanF f = true)
    (hv : bidx = none → v = (if mx then (⊥ : XV) else ⊤))
    (hfin : bidx ≠ none → ∃ q, v = fq q) :
    minimaxLoop p mx f al be (some v) bidx idx
      = (mmSpecLoop p mx f al be v bidx idx).map (fun x => (some x.1, x.2.1, x.2.2)) := by
  cases f with
  | nil => rw [minimaxLoop, mmSpecLoop]; rfl
  | cons c cs =>
    simp only [wfF, Bool.and_eq_true] at hw
    simp only [cleanF, Bool.and_eq_true] at hc
    have hcp : c.pruned = false := by
      cases c with
      | node ci cv cpr cvs cw ccs =>
        have := hc.1
        simp only [cleanT, Bool.and_eq_true, Bool.not_eq_eq_eq_not, Bool.not_true] at this
        exact this.1
    obtain ⟨qc, c', hm⟩ := mmFin p (!mx) c al be hw.1 hc.1
    have hms : mmSpec p (!mx) c al be = some (fq qc, c') := by
      have heq := mmSpecEqT p (!mx) c al be hw.1 hc.1
      rw [hm] at heq
      cases hcase : mmSpec p (!mx) c al be with
      | none => rw [hcase] at heq; simp at heq
      | some x =>
        rcases x with ⟨x1, x2⟩
        rw [hcase] at heq
        simp at heq
        rw [← heq.1, ← heq.2]
    have hueq : updFlag mx bidx (some (fq qc)) (some v)
        = some (if mx then decide (v < fq qc) else decide (fq qc < v)) := by
      cases bidx with
      | none =>
        rw [updFlag]
        have hvi := hv rfl
        cases hmx : mx with
        | true => rw [hvi, hmx]; simp [updFlag, bot_lt_fq]
        | false => rw [hvi, hmx]; simp [updFlag, fq_lt_top]
      | some k => rw [updFlag]
    have hupdS : (if mx then decide (v < fq qc) else decide (fq qc < v)) = false →
        bidx ≠ none := by
      intro hif hb
      have hvi := hv hb
      cases hmx : mx with
      | true =>
        rw [hmx] at hif hvi
        rw [hvi] at hif
        simp [bot_lt_fq] at hif
      | false =>
        rw [hmx] at hif hvi
        rw [hvi] at hif
        simp [fq_lt_top] at hif
    have hvfin : ∃ q', (if (if mx then decide (v < fq qc) else decide (fq qc < v)) then fq qc
        else v) = fq q' := by
      cases hif : (if mx then decide (v < fq qc) else decide (fq qc < v)) with
      | true => exact ⟨qc, by simp⟩
      | false =>
        obtain ⟨q', hq'⟩ := hfin (hupdS hif)
        exact ⟨q', by simp [hq']⟩
    obtain ⟨q', hq'⟩ := hvfin
    have hvnone : (if (if mx then decide (v < fq qc) else decide (fq qc < v)) then some idx
        else bidx) ≠ none := by
      cases hif : (if mx then decide (v < fq qc) else decide (fq qc < v)) with
      | true => simp
      | false => simpa using hupdS hif
    have hq'O : (if (if mx then decide (v < fq qc) else decide (fq qc < v))
        then (some (fq qc) : Option XV) else some v) = some (fq q') := by
      rw [(apply_ite Option.some ((if mx then decide (v < fq qc) else decide (fq qc < v)) = true)
        (fq qc) v).symm, hq']
    rw [minimaxLoop, mmSpecLoop]
    simp only [hcp, Bool.false_eq_true, if_false, hm, hms, hueq, hq'O, hq']
    by_cases hcut : (p && decide ((if mx then be else min be (fq q')) ≤
        (if mx then max al (fq q') else al))) = true
    · rw [if_pos hcut, if_pos hcut]
      rfl
    · rw [if_neg hcut, if_neg hcut]
      rw [mmSpecEqF p mx cs (if mx then max al (fq q') else al)
        (if mx then be else min be (fq q')) (fq q')
        (if (if mx then decide (v < fq qc) else decide (fq qc < v)) then some idx else bidx)
        (idx + 1) hw.2 hc.2 (fun hb => absurd hb hvnone) (fun _ => ⟨q', rfl⟩)]
      rcases hsl : mmSpecLoop p mx cs (if mx then max al (fq q') else al)
          (if mx then be else min be (fq q')) (fq q')
          (if (if mx then decide (v < fq qc) else decide (fq qc < v)) then some idx else bidx)
          (idx + 1) with _ | ⟨r2, b2, f2⟩
      · rfl
      · rfl
end

/-- C2: the evaluation of an internal node follows the claimed contract —
value initialized to `-inf` (MAX) or `+inf` (MIN), children iterated in
order with each non-pruned child recursively evaluated under the current
`(alpha, beta)` window, the best value and best edge replaced exactly on a
strict improvement (ties keep the leftmost best), `alpha`/`beta` tightened
with `max`/`min` after each step, and the resolved value stored on the node
on exit: the code's `minimax` equals the contract `mmSpec` transcribed from
the spec, both at the tree level and (including the recorded best-edge
index) at the loop level, on well-formed clean inputs. -/
theorem spec_C2_minimax_contract :
    (∀ (p mx : Bool) (t : GTree) (al be : XV), wfT t = true → cleanT t = true →
      minimax p mx t al be = (mmSpec p mx t al be).map (fun x => (some x.1, x.2))) ∧
    (∀ (p mx : Bool) (f : GForest) (al be v : XV) (bidx : Option ℕ) (idx : ℕ),
      wfF f = true → cleanF f = true →
      (bidx = none → v = (if mx then (⊥ : XV) else ⊤)) →
      (bidx ≠ none → ∃ q, v = fq q) →
      minimaxLoop p mx f al be (some v) bidx idx
        = (mmSpecLoop p mx f al be v bidx idx).map (fun x => (some x.1, x.2.1, x.2.2))) :=
  ⟨fun p mx t al be hw hc => mmSpecEqT p mx t al be hw hc,
   fun p mx f al be v bidx idx hw hc hv hfin => mmSpecEqF p mx f al be v bidx idx hw hc hv hfin⟩

/-- Concrete instantiation of `spec_C2_minimax_contract` on the spec's
worked example, with pruning enabled. -/
theorem spec_C2_witness :
    minimax true true exAB ⊥ ⊤ = (mmSpec true true exAB ⊥ ⊤).map (fun x => (some x.1, x.2)) :=
  spec_C2_minimax_contract.1 true true exAB ⊥ ⊤ (by decide) (by decide)

/-! ### C1: alpha-beta pruning computes the plain minimax value -/

theorem xv_bot_lt_top : (⊥ : XV) < (⊤ : XV) :=
  lt_trans (bot_lt_fq 0) (fq_lt_top 0)

/-- The conditional update of the loop is a `max`. -/
theorem ite_lt_max {a b : XV} : (if a < b then b else a) = max a b := by
  rcases lt_or_ge a b with h | h
  · rw [if_pos h, max_eq_right (le_of_lt h)]
  · rw [if_neg (not_lt.mpr h), max_eq_left h]

/-- The conditional update of the loop is a `min`. -/
theorem ite_lt_min {a b : XV} : (if b < a then b else a) = min a b := by
  rcases lt_or_ge b a with h | h
  · rw [if_pos h, min_eq_right (le_of_lt h)]
  · rw [if_neg (not_lt.mpr h), min_eq_left h]

mutual
/-- The reference minimax value of a well-formed tree is finite. -/
theorem pvalFin (mx : Bool) (t : GTree) (hw : wfT t = true) : ∃ q, pval mx t = fq q := by
  cases t with
  | node i v pr vs w cs =>
    cases cs with
    | nil =>
      rw [wfT] at hw
      cases v with
      | none => exact absurd hw (by rw [finOpt]; simp)
      | some x =>
        rw [finOpt] at hw
        obtain ⟨q, rfl⟩ := isFin_iff.mp hw
        exact ⟨q, by rw [pval]; rfl⟩
    | cons c cs' =>
      rw [wfT] at hw
      simp only [Bool.and_eq_true] at hw
      obtain ⟨q, hq⟩ := pvalFinF mx (.cons c cs') (by rw [wfF]; simp [hw.1, hw.2])
        (by simp)
      exact ⟨q, by rw [pval]; exact hq⟩

/-- Forest version of `pvalFin`. -/
theorem pvalFinF (mx : Bool) (f : GForest) (hw : wfF f = true) (hne : f ≠ .nil) :
    ∃ q, pvalF mx f = fq q := by
  cases f with
  | nil => exact absurd rfl hne
  | cons c cs =>
    simp only [wfF, Bool.and_eq_true] at hw
    obtain ⟨qc, hqc⟩ := pvalFin (!mx) c hw.1
    cases cs with
    | nil =>
      refine ⟨qc, ?_⟩
      rw [pvalF, hqc]
      cases hmx : mx with
      | true => simp [pvalF, max_eq_left bot_le]
      | false => simp [pvalF, min_eq_left le_top]
    | cons d ds =>
      obtain ⟨qs, hqs⟩ := pvalFinF mx (.cons d ds) hw.2 (by simp)
      rw [pvalF, hqc, hqs]
      cases hmx : mx with
      | true =>
        refine ⟨max qc qs, ?_⟩
        rcases le_total qc qs with h | h
        · simp [max_eq_right (fq_le_fq.mpr h), max_eq_right h]
        · simp [max_eq_left (fq_le_fq.mpr h), max_eq_left h]
      | false =>
        refine ⟨min qc qs, ?_⟩
        rcases le_total qc qs with h | h
        · simp [min_eq_left (fq_le_fq.mpr h), min_eq_left h]
        · simp [min_eq_right (fq_le_fq.mpr h), min_eq_right h]
end

mutual
/-- Without pruning, `minimax` returns exactly the reference minimax value
on every well-formed clean tree, whatever the window. -/
theorem mmFalse (mx : Bool) (t : GTree) (al be : XV) (hw : wfT t = true)
    (hc : cleanT t = true) :
    ∃ t', minimax false mx t al be = some (some (pval mx t), t') := by
  cases t with
  | node i v pr vs w cs =>
    cases cs with
    | nil =>
      rw [wfT] at hw
      cases v with
      | none => exact absurd hw (by rw [finOpt]; simp)
      | some x => exact ⟨.node i (some x) pr vs w .nil, by rw [minimax, pval]; rfl⟩
    | cons c cs' =>
      simp only [cleanT, Bool.and_eq_true] at hc
      rw [wfT] at hw
      have hwf : wfF (.cons c cs') = true := by rw [wfF]; exact hw
      obtain ⟨b', f', hl⟩ := mmFalseLoop mx (.cons c cs') al be
        (if mx then (⊥ : XV) else ⊤) none 0 hwf hc.2 (fun _ => rfl)
      have hX : (if mx then max (if mx then (⊥ : XV) else ⊤) (pvalF mx (.cons c cs'))
          else min (if mx then (⊥ : XV) else ⊤) (pvalF mx (.cons c cs')))
            = pval mx (.node i v pr vs w (.cons c cs')) := by
        rw [pval]
        cases hmx : mx with
        | true => simp [max_eq_right bot_le]
        | false => simp [min_eq_right le_top]
      rw [hX] at hl
      exact ⟨_, by rw [minimax, hl]⟩

/-- Loop version of `mmFalse`: the loop folds the children's reference
values into the accumulator with `max` (MAX) or `min` (MIN). -/
theorem mmFalseLoop (mx : Bool) (f : GForest) (al be : XV) (v : XV)
    (bidx : Option ℕ) (idx : ℕ) (hw : wfF f = true) (hc : cleanF f = true)
    (hv : bidx = none → v = (if mx then (⊥ : XV) else ⊤)) :
    ∃ (b' : Option ℕ) (f' : GForest),
      minimaxLoop false mx f al be (some v) bidx idx =
        some (some (if mx then max v (pvalF mx f) else min v (pvalF mx f)), b', f') := by
  cases f with
  | nil =>
    refine ⟨bidx, .nil, ?_⟩
    rw [minimaxLoop, pvalF]
    cases hmx : mx with
    | true => simp [max_eq_left bot_le]
    | false => simp [min_eq_left le_top]
  | cons c cs =>
    simp only [wfF, Bool.and_eq_true] at hw
    simp only [cleanF, Bool.and_eq_true] at hc
    have hcp : c.pruned = false := by
      cases c with
      | node ci cv cpr cvs cw ccs =>
        have := hc.1
        simp only [cleanT, Bool.and_eq_true, Bool.not_eq_eq_eq_not, Bool.not_true] at this
        exact this.1
    obtain ⟨c', hm⟩ := mmFalse (!mx) c al be hw.1 hc.1
    obtain ⟨qc, hqc⟩ := pvalFin (!mx) c hw.1
    rw [hqc] at hm
    have hupd : ∃ upd, updFlag mx bidx (some (fq qc)) (some v) = some upd ∧
        (if upd then (some (fq qc) : Option XV) else some v)
          = some (if mx then max v (fq qc) else min v (fq qc)) := by
      cases bidx with
      | none =>
        refine ⟨true, rfl, ?_⟩
        rw [hv rfl]
        cases hmx : mx with
        | true => simp [max_eq_right bot_le]
        | false => simp [min_eq_right le_top]
      | some k =>
        cases hmx : mx with
        | true =>
          refine ⟨decide (v < fq qc), by rw [updFlag]; simp, ?_⟩
          simp only [decide_eq_true_eq, if_pos]
          rw [(apply_ite Option.some (v < fq qc) (fq qc) v).symm, ite_lt_max]
        | false =>
          refine ⟨decide (fq qc < v), by rw [updFlag]; simp, ?_⟩
          simp only [decide_eq_true_eq]
          rw [(apply_ite Option.some (fq qc < v) (fq qc) v).symm, ite_lt_min]
          simp
    obtain ⟨upd, hu, hval⟩ := hupd
    have hbne : ∀ hb : (if upd then some idx else bidx) = none, False := by
      intro hb
      split at hb
      · exact Option.noConfusion hb
      · rw [hb] at hu
        rw [updFlag] at hu
        simp only [Option.some_inj] at hu
        rename_i hif
        rw [← hu] at hif
        exact hif rfl
    obtain ⟨b2, f2, hl2⟩ := mmFalseLoop mx cs
      (if mx then max al (if mx then max v (fq qc) else min v (fq qc)) else al)
      (if mx then be else min be (if mx then max v (fq qc) else min v (fq qc)))
      (if mx then max v (fq qc) else min v (fq qc))
      (if upd then some idx else bidx) (idx + 1) hw.2 hc.2 (fun hb => (hbne hb).elim)
    refine ⟨b2, .cons c' f2, ?_⟩
    rw [minimaxLoop]
    simp only [hcp, Bool.false_eq_true, if_false, hm, hu, hval, Bool.false_and, hl2]
    rw [pvalF, hqc]
    cases hmx : mx with
    | true => simp [max_assoc]
    | false => simp [min_assoc]
end

mutual
/-- Fail-soft alpha-beta bounds: on a well-formed clean tree, with a valid
window `al < be`, the pruning run returns a finite value `q` that agrees
with the reference minimax value inside the window, is at most `al` when
the true value fails low, and is at least `be` when the true value fails
high. -/
theorem abT (mx : Bool) (t : GTree) (al be : XV) (hw : wfT t = true)
    (hc : cleanT t = true) (hab : al < be) :
    ∃ (q : ℚ) (t' : GTree), minimax true mx t al be = some (some (fq q), t') ∧
      (pval mx t ≤ al → fq q ≤ al) ∧ (be ≤ pval mx t → be ≤ fq q) ∧
      (al < pval mx t → pval mx t < be → fq q = pval mx t) := by
  cases t with
  | node i v pr vs w cs =>
    cases cs with
    | nil =>
      rw [wfT] at hw
      cases v with
      | none => exact absurd hw (by rw [finOpt]; simp)
      | some x =>
        rw [finOpt] at hw
        obtain ⟨q, rfl⟩ := isFin_iff.mp hw
        refine ⟨q, .node i (some (fq q)) pr vs w .nil, by rw [minimax], ?_, ?_, ?_⟩
        · rw [pval]; exact fun h => h
        · rw [pval]; exact fun h => h
        · exact fun _ _ => by rw [pval]; rfl
    | cons c cs' =>
      simp only [cleanT, Bool.and_eq_true] at hc
      rw [wfT] at hw
      have hwf : wfF (.cons c cs') = true := by rw [wfF]; exact hw
      obtain ⟨q, t2, hq⟩ := mmFin true mx (.node i v pr vs w (.cons c cs')) al be
        (by rw [wfT]; exact hw) (by simp [cleanT, hc.1, hc.2])
      cases hmx : mx with
      | true =>
        obtain ⟨r, b', f', hl, _, ha, hb, hcc⟩ := abLmax (.cons c cs') al be ⊥ none 0
          hwf hc.2 hab bot_le (fun _ => rfl)
        have hrun : minimax true true (.node i v pr vs w (.cons c cs')) al be
            = some (some r, .node i (some r) pr vs w f') := by
          rw [minimax, show (if true = true then (⊥ : XV) else ⊤) = (⊥ : XV) from rfl, hl]
        rw [hmx] at hq
        rw [hrun] at hq
        simp only [Option.some_inj, Prod.mk.injEq] at hq
        have hrq : r = fq q := hq.1
        have hT : max (⊥ : XV) (pvalF true (.cons c cs'))
            = pval true (.node i v pr vs w (.cons c cs')) := by
          rw [pval, max_eq_right bot_le]
        rw [hT] at ha hb hcc
        rw [hrq] at hrun ha hb hcc
        exact ⟨q, _, hrun, ha, hb, hcc⟩
      | false =>
        obtain ⟨r, b', f', hl, _, ha, hb, hcc⟩ := abLmin (.cons c cs') al be ⊤ none 0
          hwf hc.2 hab le_top (fun _ => rfl)
        have hrun : minimax true false (.node i v pr vs w (.cons c cs')) al be
            = some (some r, .node i (some r) pr vs w f') := by
          rw [minimax, show (if false = true then (⊥ : XV) else ⊤) = (⊤ : XV) from rfl, hl]
        rw [hmx] at hq
        rw [hrun] at hq
        simp only [Option.some_inj, Prod.mk.injEq] at hq
        have hrq : r = fq q := hq.1
        have hT : min (⊤ : XV) (pvalF false (.cons c cs'))
            = pval false (.node i v pr vs w (.cons c cs')) := by
          rw [pval, min_eq_right le_top]
        rw [hT] at ha hb hcc
        rw [hrq] at hrun ha hb hcc
        exact ⟨q, _, hrun, ha, hb, hcc⟩

/-- The MAX-node loop of the pruning run, with accumulator `v ≤ al`:
fail-soft bounds with respect to `max v (pvalF true f)`. -/
theorem abLmax (f : GForest) (al be v : XV) (bidx : Option ℕ) (idx : ℕ)
    (hw : wfF f = true) (hc : cleanF f = true) (hab : al < be) (hva : v ≤ al)
    (hv : bidx = none → v = ⊥) :
    ∃ (r : XV) (b' : Option ℕ) (f' : GForest),
      minimaxLoop true true f al be (some v) bidx idx = some (some r, b', f') ∧
        v ≤ r ∧
        (max v (pvalF true f) ≤ al → r ≤ al) ∧
        (be ≤ max v (pvalF true f) → be ≤ r) ∧
        (al < max v (pvalF true f) → max v (pvalF true f) < be → r = max v (pvalF true f)) := by
  cases f with
  | nil =>
    refine ⟨v, bidx, .nil, by rw [minimaxLoop], le_refl v, ?_, ?_, ?_⟩ <;>
      rw [pvalF, show (if true = true then (⊥ : XV) else ⊤) = (⊥ : XV) from rfl,
        max_eq_left bot_le]
    · exact fun h => h
    · exact fun h => h
    · exact fun _ _ => rfl
  | cons c cs =>
    simp only [wfF, Bool.and_eq_true] at hw
    simp only [cleanF, Bool.and_eq_true] at hc
    have hcp : c.pruned = false := by
      cases c with
      | node ci cv cpr cvs cw ccs =>
        have := hc.1
        simp only [cleanT, Bool.and_eq_true, Bool.not_eq_eq_eq_not, Bool.not_true] at this
        exact this.1
    obtain ⟨qc, c', hm, ha1, hb1, hc1⟩ := abT false c al be hw.1 hc.1 hab
    have hupd : ∃ upd, updFlag true bidx (some (fq qc)) (some v) = some upd ∧
        (if upd then (some (fq qc) : Option XV) else some v) = some (max v (fq qc)) := by
      cases bidx with
      | none =>
        refine ⟨true, rfl, ?_⟩
        rw [hv rfl]
        simp [max_eq_right bot_le]
      | some k =>
        refine ⟨decide (v < fq qc), by rw [updFlag]; simp, ?_⟩
        simp only [decide_eq_true_eq]
        rw [(apply_ite Option.some (v < fq qc) (fq qc) v).symm, ite_lt_max]
    obtain ⟨upd, hu, hval⟩ := hupd
    have hbne : ∀ hb : (if upd then some idx else bidx) = none, False := by
      intro hb
      split at hb
      · exact Option.noConfusion hb
      · rw [hb] at hu
        rw [updFlag] at hu
        simp only [Option.some_inj] at hu
        rename_i hif
        rw [← hu] at hif
        exact hif rfl
    have hpcT : pvalF true (.cons c cs)
        = max (pval false c) (pvalF true cs) := by
      rw [pvalF]
      simp
    have hTsplit : max v (pvalF true (.cons c cs))
        = max (max v (pval false c)) (pvalF true cs) := by
      rw [hpcT, max_assoc]
    by_cases hcut : be ≤ max al (max v (fq qc))
    · -- cutoff: the loop stops with value max v qc and the rest marked
      refine ⟨max v (fq qc), (if upd then some idx else bidx), .cons c' (markAllPruned cs),
        ?_, le_max_left v (fq qc), ?_, ?_, ?_⟩
      · rw [minimaxLoop]
        simp only [hcp, Bool.false_eq_true, if_false, Bool.not_true, hm, hu, hval,
          eq_self_iff_true, if_true, Bool.true_and]
        rw [if_pos (by simp [hcut])]
      · intro h
        rw [hTsplit] at h
        have hpc : pval false c ≤ al :=
          le_trans (le_trans (le_max_right v _) (le_max_left _ _)) h
        exact max_le hva (ha1 hpc)
      · intro _
        rcases le_max_iff.mp hcut with h | h
        · exact absurd h (not_le.mpr hab)
        · exact h
      · intro h1 h2
        rcases le_max_iff.mp hcut with h | h
        · exact absurd h (not_le.mpr hab)
        · rcases le_max_iff.mp h with h3 | h3
          · exact absurd (lt_of_le_of_lt (le_trans h3 hva) hab) (not_lt.mpr le_rfl)
          · by_cases hpcal : pval false c ≤ al
            · exact absurd (lt_of_le_of_lt (le_trans h3 (ha1 hpcal)) hab)
                (not_lt.mpr le_rfl)
            · have hpc_be : pval false c < be := by
                rw [hTsplit] at h2
                exact lt_of_le_of_lt (le_trans (le_max_right v _) (le_max_left _ _)) h2
              have := hc1 (not_le.mp hpcal) hpc_be
              rw [this] at h3
              exact absurd (lt_of_le_of_lt h3 hpc_be) (not_lt.mpr le_rfl)
    · -- no cutoff: recurse with the widened alpha
      have hab' : max al (max v (fq qc)) < be := not_le.mp hcut
      obtain ⟨r, b2, f2, hl2, hvr, haI, hbI, hcI⟩ := abLmax cs
        (max al (max v (fq qc))) be (max v (fq qc)) (if upd then some idx else bidx)
        (idx + 1) hw.2 hc.2 hab' (le_max_right al _) (fun hb => (hbne hb).elim)
      refine ⟨r, b2, .cons c' f2, ?_, le_trans (le_max_left v (fq qc)) hvr, ?_, ?_, ?_⟩
      · rw [minimaxLoop]
        simp only [hcp, Bool.false_eq_true, if_false, Bool.not_true, hm, hu, hval,
          eq_self_iff_true, if_true, Bool.true_and]
        rw [if_neg (by simp [hcut]), hl2]
      · intro h
        rw [hTsplit] at h
        have hpc : pval false c ≤ al :=
          le_trans (le_trans (le_max_right v _) (le_max_left _ _)) h
        have hA : pvalF true cs ≤ al := le_trans (le_max_right _ _) h
        have hv'al : max v (fq qc) ≤ al := max_le hva (ha1 hpc)
        have h5 : max al (max v (fq qc)) = al := max_eq_left hv'al
        have := haI (by rw [h5]; exact max_le hv'al hA)
        rw [h5] at this
        exact this
      · intro h
        rw [hTsplit] at h
        rcases le_max_iff.mp h with h3 | h3
        · rcases le_max_iff.mp h3 with h4 | h4
          · exact absurd (lt_of_le_of_lt (le_trans h4 hva) hab) (not_lt.mpr le_rfl)
          · have : be ≤ max al (max v (fq qc)) :=
              le_trans (le_trans (hb1 h4) (le_max_right v _)) (le_max_right al _)
            exact absurd hab' (not_lt.mpr this)
        · exact hbI (le_trans h3 (le_max_right _ _))
      · intro h1 h2
        rw [hTsplit] at h1 h2 ⊢
        have hAle : pvalF true cs < be := lt_of_le_of_lt (le_max_right _ _) h2
        have hpclt : pval false c < be :=
          lt_of_le_of_lt (le_trans (le_max_right v _) (le_max_left _ _)) h2
        by_cases hpcal : pval false c ≤ al
        · have hqcal : fq qc ≤ al := ha1 hpcal
          have hv'al : max v (fq qc) ≤ al := max_le hva hqcal
          have h5 : max al (max v (fq qc)) = al := max_eq_left hv'al
          have hTA : max (max v (pval false c)) (pvalF true cs) = pvalF true cs := by
            have hvpc : max v (pval false c) ≤ al := max_le hva hpcal
            have halA : al < pvalF true cs := by
              rcases le_or_lt (pvalF true cs) al with hA | hA
              · exact absurd (lt_of_le_of_lt (max_le hvpc hA) h1) (not_lt.mpr le_rfl)
              · exact hA
            exact max_eq_right (le_trans hvpc (le_of_lt halA))
          rw [hTA]
          have halA : al < pvalF true cs := by
            rw [hTA] at h1
            exact h1
          have hT'A : max (max v (fq qc)) (pvalF true cs) = pvalF true cs :=
            max_eq_right (le_trans hv'al (le_of_lt halA))
          have := hcI (by rw [h5, hT'A]; exact halA)
            (by rw [hT'A]; rw [hTA] at h2; exact h2)
          rw [hT'A] at this
          exact this
        · have halpc : al < pval false c := not_le.mp hpcal
          have hqc_eq : fq qc = pval false c := hc1 halpc hpclt
          have hv'pc : max v (fq qc) = pval false c := by
            rw [hqc_eq]
            exact max_eq_right (le_of_lt (lt_of_le_of_lt hva halpc))
          have hal' : max al (max v (fq qc)) = pval false c := by
            rw [hv'pc]
            exact max_eq_right (le_of_lt halpc)
          have hTpc : max (max v (pval false c)) (pvalF true cs)
              = max (pval false c) (pvalF true cs) := by
            have : max v (pval false c) = pval false c :=
              max_eq_right (le_of_lt (lt_of_le_of_lt hva halpc))
            rw [this]
          rw [hTpc]
          have hT'pc : max (max v (fq qc)) (pvalF true cs)
              = max (pval false c) (pvalF true cs) := by
            rw [hv'pc]
          rcases lt_or_le (pval false c) (max (pval false c) (pvalF true cs)) with hlt | hle
          · have := hcI (by rw [hal', hT'pc]; exact hlt)
              (by rw [hT'pc]; rw [hTpc] at h2; exact h2)
            rw [hT'pc] at this
            exact this
          · have hTeq : max (pval false c) (pvalF true cs) = pval false c :=
              le_antisymm hle (le_max_left _ _)
            rw [hTeq]
            have h6 := haI (by rw [hal', hT'pc, hTeq])
            rw [hal'] at h6
            have h7 : pval false c ≤ r := by
              rw [← hv'pc]
              exact hvr
            exact le_antisymm h6 h7

/-- The MIN-node loop of the pruning run, with accumulator `be ≤ v`:
fail-soft bounds with respect to `min v (pvalF false f)`. -/
theorem abLmin (f : GForest) (al be v : XV) (bidx : Option ℕ) (idx : ℕ)
    (hw : wfF f = true) (hc : cleanF f = true) (hab : al < be) (hvb : be ≤ v)
    (hv : bidx = none → v = ⊤) :
    ∃ (r : XV) (b' : Option ℕ) (f' : GForest),
      minimaxLoop true false f al be (some v) bidx idx = some (some r, b', f') ∧
        r ≤ v ∧
        (min v (pvalF false f) ≤ al → r ≤ al) ∧
        (be ≤ min v (pvalF false f) → be ≤ r) ∧
        (al < min v (pvalF false f) → min v (pvalF false f) < be → r = min v (pvalF false f)) := by
  cases f with
  | nil =>
    refine ⟨v, bidx, .nil, by rw [minimaxLoop], le_refl v, ?_, ?_, ?_⟩ <;>
      rw [pvalF, show (if false = true then (⊥ : XV) else ⊤) = (⊤ : XV) from rfl,
        min_eq_left le_top]
    · exact fun h => h
    · exact fun h => h
    · exact fun _ _ => rfl
  | cons c cs =>
    simp only [wfF, Bool.and_eq_true] at hw
    simp only [cleanF, Bool.and_eq_true] at hc
    have hcp : c.pruned = false := by
      cases c with
      | node ci cv cpr cvs cw ccs =>
        have := hc.1
        simp only [cleanT, Bool.and_eq_true, Bool.not_eq_eq_eq_not, Bool.not_true] at this
        exact this.1
    obtain ⟨qc, c', hm, ha1, hb1, hc1⟩ := abT true c al be hw.1 hc.1 hab
    have hupd : ∃ upd, updFlag false bidx (some (fq qc)) (some v) = some upd ∧
        (if upd then (some (fq qc) : Option XV) else some v) = some (min v (fq qc)) := by
      cases bidx with
      | none =>
        refine ⟨true, rfl, ?_⟩
        rw [hv rfl]
        simp [min_eq_right le_top]
      | some k =>
        refine ⟨decide (fq qc < v), by rw [updFlag]; simp, ?_⟩
        simp only [decide_eq_true_eq]
        rw [(apply_ite Option.some (fq qc < v) (fq qc) v).symm, ite_lt_min]
    obtain ⟨upd, hu, hval⟩ := hupd
    have hbne : ∀ hb : (if upd then some idx else bidx) = none, False := by
      intro hb
      split at hb
      · exact Option.noConfusion hb
      · rw [hb] at hu
        rw [updFlag] at hu
        simp only [Option.some_inj] at hu
        rename_i hif
        rw [← hu] at hif
        exact hif rfl
    have hpcT : pvalF false (.cons c cs)
        = min (pval true c) (pvalF false cs) := by
      rw [pvalF]
      simp
    have hTsplit : min v (pvalF false (.cons c cs))
        = min (min v (pval true c)) (pvalF false cs) := by
      rw [hpcT, min_assoc]
    by_cases hcut : min be (min v (fq qc)) ≤ al
    · refine ⟨min v (fq qc), (if upd then some idx else bidx), .cons c' (markAllPruned cs),
        ?_, min_le_left v (fq qc), ?_, ?_, ?_⟩
      · rw [minimaxLoop]
        simp only [hcp, Bool.false_eq_true, if_false, Bool.not_false, hm, hu, hval,
          eq_self_iff_true, if_true, Bool.true_and]
        rw [if_pos (by simp [hcut])]
      · intro _
        rcases min_le_iff.mp hcut with h | h
        · exact absurd h (not_le.mpr hab)
        · exact h
      · intro h
        rw [hTsplit] at h
        have hpc : be ≤ pval true c :=
          le_trans h (le_trans (min_le_left _ _) (min_le_right v _))
        exact le_min hvb (hb1 hpc)
      · intro h1 h2
        rcases min_le_iff.mp hcut with h | h
        · exact absurd h (not_le.mpr hab)
        · rcases min_le_iff.mp h with h3 | h3
          · exact absurd (lt_of_lt_of_le hab (le_trans hvb h3)) (not_lt.mpr le_rfl)
          · by_cases hpcbe : be ≤ pval true c
            · exact absurd (lt_of_lt_of_le hab (le_trans (hb1 hpcbe) h3))
                (not_lt.mpr le_rfl)
            · have hpc_al : al < pval true c := by
                rw [hTsplit] at h1
                exact lt_of_lt_of_le h1 (le_trans (min_le_left _ _) (min_le_right v _))
              have := hc1 hpc_al (not_le.mp hpcbe)
              rw [this] at h3
              exact absurd (lt_of_lt_of_le hpc_al h3) (not_lt.mpr le_rfl)
    · have hab' : al < min be (min v (fq qc)) := not_le.mp hcut
      obtain ⟨r, b2, f2, hl2, hvr, haI, hbI, hcI⟩ := abLmin cs
        al (min be (min v (fq qc))) (min v (fq qc)) (if upd then some idx else bidx)
        (idx + 1) hw.2 hc.2 hab' (min_le_right be _) (fun hb => (hbne hb).elim)
      refine ⟨r, b2, .cons c' f2, ?_, le_trans hvr (min_le_left v (fq qc)), ?_, ?_, ?_⟩
      · rw [minimaxLoop]
        simp only [hcp, Bool.false_eq_true, if_false, Bool.not_false, hm, hu, hval,
          eq_self_iff_true, if_true, Bool.true_and]
        rw [if_neg (by simp [hcut]), hl2]
      · intro h
        rw [hTsplit] at h
        rcases min_le_iff.mp h with h3 | h3
        · rcases min_le_iff.mp h3 with h4 | h4
          · exact absurd (lt_of_lt_of_le hab (le_trans hvb h4)) (not_lt.mpr le_rfl)
          · have : min be (min v (fq qc)) ≤ al :=
              le_trans (min_le_right be _) (le_trans (min_le_right v _) (ha1 h4))
            exact absurd hab' (not_lt.mpr this)
        · exact haI (le_trans (min_le_right _ _) h3)
      · intro h
        rw [hTsplit] at h
        have hpc : be ≤ pval true c :=
          le_trans h (le_trans (min_le_left _ _) (min_le_right v _))
        have hA : be ≤ pvalF false cs := le_trans h (min_le_right _ _)
        have hv'be : be ≤ min v (fq qc) := le_min hvb (hb1 hpc)
        have h5 : min be (min v (fq qc)) = be := min_eq_left hv'be
        have := hbI (by rw [h5]; exact le_min hv'be hA)
        rw [h5] at this
        exact this
      · intro h1 h2
        rw [hTsplit] at h1 h2 ⊢
        have hAgt : al < pvalF false cs := lt_of_lt_of_le h1 (min_le_right _ _)
        have hpcgt : al < pval true c :=
          lt_of_lt_of_le h1 (le_trans (min_le_left _ _) (min_le_right v _))
        by_cases hpcbe : be ≤ pval true c
        · have hqcbe : be ≤ fq qc := hb1 hpcbe
          have hv'be : be ≤ min v (fq qc) := le_min hvb hqcbe
          have h5 : min be (min v (fq qc)) = be := min_eq_left hv'be
          have hTA : min (min v (pval true c)) (pvalF false cs) = pvalF false cs := by
            have hvpc : be ≤ min v (pval true c) := le_min hvb hpcbe
            have hbeA : pvalF false cs < be := by
              rcases le_or_lt be (pvalF false cs) with hA | hA
              · exact absurd (lt_of_lt_of_le h2 (le_min hvpc hA)) (not_lt.mpr le_rfl)
              · exact hA
            exact min_eq_right (le_trans (le_of_lt hbeA) hvpc)
          rw [hTA]
          have hbeA : pvalF false cs < be := by
            rw [hTA] at h2
            exact h2
          have hT'A : min (min v (fq qc)) (pvalF false cs) = pvalF false cs :=
            min_eq_right (le_trans (le_of_lt hbeA) hv'be)
          have := hcI (by rw [hT'A]; rw [hTA] at h1; exact h1)
            (by rw [h5, hT'A]; exact hbeA)
          rw [hT'A] at this
          exact this
        · have hpclt : pval true c < be := not_le.mp hpcbe
          have hqc_eq : fq qc = pval true c := hc1 hpcgt hpclt
          have hv'pc : min v (fq qc) = pval true c := by
            rw [hqc_eq]
            exact min_eq_right (le_of_lt (lt_of_lt_of_le hpclt hvb))
          have hbe' : min be (min v (fq qc)) = pval true c := by
            rw [hv'pc]
            exact min_eq_right (le_of_lt hpclt)
          have hTpc : min (min v (pval true c)) (pvalF false cs)
              = min (pval true c) (pvalF false cs) := by
            have : min v (pval true c) = pval true c :=
              min_eq_right (le_of_lt (lt_of_lt_of_le hpclt hvb))
            rw [this]
          rw [hTpc]
          have hT'pc : min (min v (fq qc)) (pvalF false cs)
              = min (pval true c) (pvalF false cs) := by
            rw [hv'pc]
          rcases lt_or_le (min (pval true c) (pvalF false cs)) (pval true c) with hlt | hle
          · have := hcI (by rw [hT'pc]; rw [hTpc] at h1; exact h1)
              (by rw [hbe', hT'pc]; exact hlt)
            rw [hT'pc] at this
            exact this
          · have hTeq : min (pval true c) (pvalF false cs) = pval true c :=
              le_antisymm (min_le_left _ _) hle
            rw [hTeq]
            have h6 := hbI (by rw [hbe', hT'pc, hTeq])
            rw [hbe'] at h6
            have h7 : r ≤ pval true c := by
              rw [← hv'pc]
              exact hvr
            exact le_antisymm h7 h6
end

/-- C1: on every well-formed clean tree, the run with pruning enabled
returns the same root value as the run with pruning disabled (both called,
as `run_minimax` does, with the full window `(-inf, +inf)`).  The proof
needs no distinctness assumption on the leaf values: the fail-soft bounds
give exactness whenever the reference value lies strictly inside the
window, which the full window always guarantees. -/
theorem spec_C1_pruning_equivalence (t : GTree) (hw : wfT t = true) (hc : cleanT t = true) :
    (minimax true true t ⊥ ⊤).map Prod.fst = (minimax false true t ⊥ ⊤).map Prod.fst := by
  obtain ⟨qp, hqp⟩ := pvalFin true t hw
  obtain ⟨q, t', hrun, _, _, hcc⟩ := abT true t ⊥ ⊤ hw hc xv_bot_lt_top
  obtain ⟨t2, hrun2⟩ := mmFalse true t ⊥ ⊤ hw hc
  have hq : fq q = pval true t :=
    hcc (by rw [hqp]; exact bot_lt_fq qp) (by rw [hqp]; exact fq_lt_top qp)
  rw [hrun, hrun2]
  simp [hq]

/-- Concrete instantiation of `spec_C1_pruning_equivalence` on the spec's
worked example (root value `3` both with and without pruning). -/
theorem spec_C1_witness :
    (minimax true true exAB ⊥ ⊤).map Prod.fst = (minimax false true exAB ⊥ ⊤).map Prod.fst :=
  spec_C1_pruning_equivalence exAB (by decide) (by decide)

end LMS
